import Mathlib

/-!
# dsvpn, `src/os.c`: tunnel framing, command templates and `shell_cmd`

A shallow embedding of the operating-system layer of dsvpn (`src/os.c`) and
the properties of it that the specification relies on.

Data model.

* A byte of a C string is a `Char`; `NUL` is the terminator.  A `List Char`
  stands for the memory a `char *` points to: the C string it holds is the
  part before the first `NUL` (or the whole list, the terminator then being
  the byte after it), see `cstr`.
* `cmdbuf` of `shell_cmd` is only ever written at index `cmdbuf_i`, which
  then advances, so the buffer is the list of the bytes written so far and
  `cmdbuf_i` is its length.  `args` is the list of the offsets into `cmdbuf`
  stored so far and `args_i` is its length.
* System calls (`vfork`, `waitpid`, `readv`, `writev`, `open`, `socket`,
  `ioctl`, `connect`) are inputs of the model or recorded in a trace.
-/

namespace Dsvpn

/-! ## C strings -/

/-- The terminator of a C string. -/
def NUL : Char := Char.ofNat 0

/-- The function `isspace` of `<ctype.h>` in the "C" locale: space, `\t`, `\n`, `\v`,
`\f` and `\r`. -/
def isspace (c : Char) : Bool :=
  c == ' ' || c == '\t' || c == '\n' || c == Char.ofNat 11 || c == Char.ofNat 12 || c == '\r'

/-- The C string stored at the start of `s`: the bytes before the first `NUL`. -/
def cstr (s : List Char) : List Char :=
  s.takeWhile (fun c => c != NUL)

/-- The function `strlen`. -/
def strlen (s : List Char) : Nat :=
  (cstr s).length

/-- The test `strncmp(a, b, n) == 0`: the first `n` bytes are compared, the comparison
stops after a `NUL` found in both, and the byte after the end of a list is its
terminator. -/
def strncmp_eq : List Char → List Char → Nat → Bool
  | _, _, 0 => true
  | a, b, n + 1 =>
    let ca := a.headD NUL
    let cb := b.headD NUL
    if ca != cb then false
    else if ca == NUL then true
    else strncmp_eq a.tail b.tail n

/-! ## `shell_cmd` (os.c, lines 275-341) -/

/-- A row `{ pattern, value }` of the table `substs`; the row `{ NULL, NULL }` that ends
the table in C is the end of the list. -/
abbrev Subst := List Char × List Char

/-- The value of `errno` the model tracks. -/
inductive Errno where
  | ENOSPC
  | EINVAL
  | other (code : Nat)
  deriving DecidableEq, Repr

/-- The local variables of `shell_cmd` that the parsing loop updates. -/
structure BuildState where
  /-- The offsets `args[0..args_i)` point at in `cmdbuf`. -/
  args : List Nat
  /-- The bytes `cmdbuf[0..cmdbuf_i)`. -/
  cmdbuf : List Char
  /-- The flag `is_space`. -/
  is_space : Bool
  deriving DecidableEq, Repr

/-- The size `sizeof cmdbuf`. -/
def CMDBUF_SIZE : Nat := 4096

/-- The number of slots `sizeof args / sizeof args[0]`. -/
def ARGS_SIZE : Nat := 64

/-- The inner loop `for (i = 0; substs[i][0] != NULL; i++)` up to its `break`: the first row
whose pattern is a prefix of the text at the current position. -/
def find_subst : List Subst → List Char → Option Subst
  | [], _ => none
  | (pat, sub) :: more, s =>
    if strncmp_eq pat s (strlen pat) then some (pat, sub) else find_subst more s

/-- What one iteration of the parsing loop does. -/
inductive LoopStep where
  /-- The loop condition `(c = args_str[args_str_i]) != 0` is false. -/
  | stop (st : BuildState)
  /-- One of the `return -1` statements; `errno` is the value set on line 283. -/
  | fail (e : Errno)
  /-- The body ran; the text from the new `args_str_i` on, and the new locals. -/
  | next (rest : List Char) (st : BuildState)
  deriving DecidableEq, Repr

/-- One iteration of `for (args_str_i = 0; (c = args_str[args_str_i]) != 0; args_str_i++)`
(lines 284-321); the second argument is the text from `args_str_i` on.  A substitution
moves `args_str_i` forward by `pat_len - 1` and the loop header by one more; in `size_t`
arithmetic a pattern of length `0` leaves `args_str_i` where it is. -/
def shell_cmd_step (substs : List Subst) (s : List Char) (st : BuildState) : LoopStep :=
  match s with
  | [] => .stop st
  | c :: rest =>
    if c == NUL then .stop st
    else if isspace c then
      if !st.is_space then
        if st.cmdbuf.length ≥ CMDBUF_SIZE then .fail .ENOSPC
        else .next rest { st with cmdbuf := st.cmdbuf ++ [NUL], is_space := true }
      else .next rest { st with is_space := true }
    else if st.is_space && st.args.length ≥ ARGS_SIZE then .fail .ENOSPC
    else
      let args := if st.is_space then st.args ++ [st.cmdbuf.length] else st.args
      match find_subst substs (c :: rest) with
      | some (pat, sub) =>
        let sub_len := strlen sub
        if CMDBUF_SIZE - st.cmdbuf.length ≤ sub_len then .fail .ENOSPC
        else .next ((c :: rest).drop (strlen pat))
          { args := args, cmdbuf := st.cmdbuf ++ sub.take sub_len, is_space := false }
      | none =>
        if st.cmdbuf.length ≥ CMDBUF_SIZE then .fail .ENOSPC
        else .next rest { args := args, cmdbuf := st.cmdbuf ++ [c], is_space := false }

/-- The parsing loop, run for at most `fuel` iterations: `none` when the iterations run
out before the loop exits. -/
def shell_cmd_loop (substs : List Subst) :
    Nat → List Char → BuildState → Option (Except Errno BuildState)
  | 0, _, _ => none
  | fuel + 1, s, st =>
    match shell_cmd_step substs s st with
    | .stop st' => some (.ok st')
    | .fail e => some (.error e)
    | .next rest st' => shell_cmd_loop substs fuel rest st'

/-- The text still to read and the locals after `n` iterations of the parsing loop;
`none` when the loop has exited or returned before. -/
def shell_cmd_iter (substs : List Subst) :
    Nat → List Char → BuildState → Option (List Char × BuildState)
  | 0, s, st => some (s, st)
  | n + 1, s, st =>
    match shell_cmd_step substs s st with
    | .next rest st' => shell_cmd_iter substs n rest st'
    | _ => none

/-- The arrays handed to `execvp`: the offsets stored in `args` (the slot after them holds
`NULL`) and the contents of `cmdbuf`. -/
structure Built where
  /-- The offsets `args[0..args_i)`; `args[args_i]` is `NULL`. -/
  args : List Nat
  /-- The bytes `cmdbuf[0..cmdbuf_i)`. -/
  cmdbuf : List Char
  deriving DecidableEq, Repr

/-- Lines 322-331: the terminator of the last token and the `NULL` that ends `args`. -/
def shell_cmd_finish (st : BuildState) : Except Errno Built :=
  if !st.is_space && st.cmdbuf.length ≥ CMDBUF_SIZE then .error .ENOSPC
  else
    let cmdbuf := if !st.is_space then st.cmdbuf ++ [NUL] else st.cmdbuf
    if st.args.length ≥ ARGS_SIZE then .error .ENOSPC
    else .ok { args := st.args, cmdbuf := cmdbuf }

/-- Lines 280-331 of `shell_cmd`: everything before `vfork`. -/
def shell_cmd_build (substs : List Subst) (fuel : Nat) (args_str : List Char) :
    Option (Except Errno Built) :=
  match shell_cmd_loop substs fuel args_str { args := [], cmdbuf := [], is_space := true } with
  | none => none
  | some (.error e) => some (.error e)
  | some (.ok st) => some (shell_cmd_finish st)

/-- The argument vector `execvp` reads: for every pointer of `args` before the `NULL`, the
C string that starts there in `cmdbuf`. -/
def argv (b : Built) : List (List Char) :=
  b.args.map (fun off => cstr (b.cmdbuf.drop off))

/-! ### What `shell_cmd` computes, stated on lists -/

/-- The whitespace-separated tokens of a text: its maximal runs of characters that are not
`isspace`, in order. -/
def tokens : List Char → List (List Char)
  | [] => []
  | c :: rest =>
    if isspace c then tokens rest
    else
      match rest with
      | [] => [[c]]
      | d :: _ =>
        if isspace d then [c] :: tokens rest
        else
          match tokens rest with
          | t :: ts => (c :: t) :: ts
          | [] => [[c]]

/-- Substitution in a token, left to right, the first counter being the number of
characters still covered by the pattern matched last: where a pattern of the table matches,
the value of the first such row is copied and the pattern is skipped; any other character is
copied.  A copied value is not read again. -/
def expandGo (substs : List Subst) : Nat → List Char → List Char
  | _, [] => []
  | k + 1, _ :: rest => expandGo substs k rest
  | 0, c :: rest =>
    match find_subst substs (c :: rest) with
    | some (pat, sub) => cstr sub ++ expandGo substs (strlen pat - 1) rest
    | none => c :: expandGo substs 0 rest

/-- The expansion of a token under a table. -/
def expand (substs : List Subst) (tok : List Char) : List Char :=
  expandGo substs 0 tok

/-- The characters of a text before its first whitespace character. -/
def tokenHead (s : List Char) : List Char :=
  s.takeWhile (fun c => !isspace c)

/-- A text from its first whitespace character on. -/
def tokenTail (s : List Char) : List Char :=
  s.dropWhile (fun c => !isspace c)

/-- The arguments the rest `s` of a template adds when the loop is inside a token of which
it has stored `t` so far (`some t`), or between tokens (`none`). -/
def pieces (substs : List Subst) : Option (List Char) → List Char → List (List Char)
  | none, s => (tokens s).map (expand substs)
  | some t, s => (t ++ expand substs (tokenHead s)) :: (tokens (tokenTail s)).map (expand substs)

/-- The bytes of `cmdbuf` that hold the arguments `l`, each followed by its terminator. -/
def layout : List (List Char) → List Char
  | [] => []
  | a :: l => a ++ NUL :: layout l

/-- The offsets of the arguments `l` in a buffer in which the first one starts at `base`. -/
def offsets (base : Nat) : List (List Char) → List Nat
  | [] => []
  | a :: l => base :: offsets (base + a.length + 1) l

/-- The locals of the parsing loop once it has stored the arguments `done`, each with its
terminator, and is either between tokens (`none`) or inside a token of which it has stored
`t` (`some t`). -/
def conc (done : List (List Char)) : Option (List Char) → BuildState
  | none => { args := offsets 0 done, cmdbuf := layout done, is_space := true }
  | some t =>
    { args := offsets 0 done ++ [(layout done).length], cmdbuf := layout done ++ t,
      is_space := false }

/-- The arguments fit the arrays of `shell_cmd`: at most 63 of them (one slot of `args` is
for the final `NULL`), and with their terminators at most 4096 bytes. -/
def Fits (l : List (List Char)) : Prop :=
  l.length < ARGS_SIZE ∧ (layout l).length ≤ CMDBUF_SIZE

instance (l : List (List Char)) : Decidable (Fits l) :=
  inferInstanceAs (Decidable (_ ∧ _))

/-- No pattern of the table contains a whitespace character. -/
def NoSpacePatterns (substs : List Subst) : Prop :=
  ∀ row ∈ substs, ∀ c ∈ cstr row.1, isspace c = false

/-- No pattern of the table is the empty string. -/
def NonemptyPatterns (substs : List Subst) : Prop :=
  ∀ row ∈ substs, cstr row.1 ≠ []

instance (substs : List Subst) : Decidable (NoSpacePatterns substs) :=
  inferInstanceAs (Decidable (∀ row ∈ substs, ∀ c ∈ cstr row.1, isspace c = false))

instance (substs : List Subst) : Decidable (NonemptyPatterns substs) :=
  inferInstanceAs (Decidable (∀ row ∈ substs, cstr row.1 ≠ []))

/-! ### Running the command (lines 332-340) -/

/-- The value `waitpid` stores in `exit_status`: the child exited with a status, or a signal
ended it. -/
inductive WaitStatus where
  | exited (status : Nat)
  | signaled (sig : Nat)
  deriving DecidableEq, Repr

/-- The test `WIFEXITED` of `<sys/wait.h>`. -/
def WIFEXITED : WaitStatus → Bool
  | .exited _ => true
  | .signaled _ => false

/-- The outcomes of the system calls of `shell_cmd`, as the parent process sees them. -/
structure ProcEnv where
  /-- The call `vfork()`: the pid of the child, or the `errno` of a return value `-1`. -/
  vfork : Except Errno Nat
  /-- The call `waitpid(child, &exit_status, 0)`: the status stored, or the `errno` of a
  return value `-1`.  A child in which `execvp` fails calls `_exit(1)`: its status is
  `exited 1`. -/
  waitpid : Except Errno WaitStatus
  /-- The value of `errno` in the parent when it runs again after `vfork`: the child shares
  the memory of the parent until it calls `execvp` or `_exit`, so an `execvp` that fails
  leaves its `errno` there; otherwise it is still the `ENOSPC` of line 283. -/
  child_errno : Errno

/-- What a call of `shell_cmd` does. -/
structure ShellResult where
  /-- The value returned. -/
  ret : Int
  /-- The value of `errno` on return: `ENOSPC` from line 283 when no child was created,
  unless `vfork` has set it; after that what the child and `waitpid` have left. -/
  errno : Errno
  /-- The argument vector the child gives to `execvp`, when a child has been created. -/
  execvp : Option (List (List Char))
  deriving DecidableEq, Repr

/-- The function `shell_cmd`, for at most `fuel` iterations of its parsing loop (`none` when
they run out). -/
def shell_cmd (env : ProcEnv) (substs : List Subst) (fuel : Nat) (args_str : List Char) :
    Option ShellResult :=
  match shell_cmd_build substs fuel args_str with
  | none => none
  | some (.error e) => some { ret := -1, errno := e, execvp := none }
  | some (.ok b) =>
    match env.vfork with
    | .error e => some { ret := -1, errno := e, execvp := none }
    | .ok _ =>
      match env.waitpid with
      | .error e => some { ret := -1, errno := e, execvp := some (argv b) }
      | .ok exit_status =>
        if !WIFEXITED exit_status then
          some { ret := -1, errno := env.child_errno, execvp := some (argv b) }
        else some { ret := 0, errno := env.child_errno, execvp := some (argv b) }

/-! ## `firewall_rules_cmds` (os.c, lines 343-396) -/

/-- The platform macros the preprocessor branches of `os.c` test. -/
inductive Platform where
  | linux
  | apple
  | openbsd
  | freebsd
  | other
  deriving DecidableEq, Repr

/-- The structure `Cmds`: two pointers, each `NULL` (`none`) or to an array of strings, an
entry of which is a template or `NULL` (`none`). -/
structure Cmds where
  /-- The array `set_cmds`. -/
  set_cmds : Option (List (Option String))
  /-- The array `unset_cmds`. -/
  unset_cmds : Option (List (Option String))
  deriving DecidableEq, Repr

/-- The function `firewall_rules_cmds`, with the arrays as the source writes them. -/
def firewall_rules_cmds (platform : Platform) (is_server : Int) : Cmds :=
  if is_server ≠ 0 then
    match platform with
    | .linux =>
      { set_cmds := some
          [ some "sysctl net.ipv4.ip_forward=1",
            some "ip addr add $LOCAL_TUN_IP peer $REMOTE_TUN_IP dev $IF_NAME",
            some "ip link set dev $IF_NAME up",
            some "iptables -t nat -A POSTROUTING -o $EXT_IF_NAME -s $REMOTE_TUN_IP -j MASQUERADE",
            some ("iptables -t filter -A FORWARD -i $EXT_IF_NAME -o $IF_NAME -m state --state "
              ++ "RELATED,ESTABLISHED -j ACCEPT"),
            some "iptables -t filter -A FORWARD -i $IF_NAME -o $EXT_IF_NAME -j ACCEPT",
            none ],
        unset_cmds := some
          [ some "iptables -t nat -D POSTROUTING -o $EXT_IF_NAME -s $REMOTE_TUN_IP -j MASQUERADE",
            some ("iptables -t filter -D FORWARD -i $EXT_IF_NAME -o $IF_NAME -m state --state "
              ++ "RELATED,ESTABLISHED -j ACCEPT"),
            some "iptables -t filter -D FORWARD -i $IF_NAME -o $EXT_IF_NAME -j ACCEPT",
            none ] }
    | _ => { set_cmds := none, unset_cmds := none }
  else
    match platform with
    | .apple | .openbsd | .freebsd =>
      { set_cmds := some
          [ some "ifconfig $IF_NAME $LOCAL_TUN_IP $REMOTE_TUN_IP up",
            some "ifconfig $IF_NAME inet6 $LOCAL_TUN_IP6 $REMOTE_TUN_IP6 prefixlen 128 up",
            some "route add $EXT_IP $EXT_GW_IP",
            some "route add 0/1 $REMOTE_TUN_IP",
            some "route add 128/1 $REMOTE_TUN_IP",
            some "route add -inet6 -blackhole 0000::/1 $REMOTE_TUN_IP6",
            some "route add -inet6 -blackhole 8000::/1 $REMOTE_TUN_IP6",
            none ],
        unset_cmds := some [ some "route delete $EXT_IP $EXT_GW_IP", none ] }
    | .linux =>
      { set_cmds := some
          [ some "sysctl net.ipv4.tcp_congestion_control=bbr",
            some "ip link set dev $IF_NAME up",
            some "ip addr add $LOCAL_TUN_IP peer $REMOTE_TUN_IP dev $IF_NAME",
            some "ip -6 addr add $LOCAL_TUN_IP6 peer $REMOTE_TUN_IP6 dev $IF_NAME",
            some "ip route add $EXT_IP via $EXT_GW_IP",
            some "ip route add 0/1 via $REMOTE_TUN_IP",
            some "ip route add 128/1 via $REMOTE_TUN_IP",
            some "ip -6 route add 0000::/1 via $REMOTE_TUN_IP6",
            some "ip -6 route add 8000::/1 via $REMOTE_TUN_IP6",
            none ],
        unset_cmds := some [ some "ip route del $EXT_IP via $EXT_GW_IP", none ] }
    | .other => { set_cmds := none, unset_cmds := none }

/-- The eight variables of the substitution set, in the order the specification lists
them. -/
def substVars : List String :=
  ["$IF_NAME", "$LOCAL_TUN_IP", "$REMOTE_TUN_IP", "$LOCAL_TUN_IP6", "$REMOTE_TUN_IP6",
   "$EXT_IF_NAME", "$EXT_IP", "$EXT_GW_IP"]

/-- A table for the eight variables with sample values, the rows of `$LOCAL_TUN_IP6` and
`$REMOTE_TUN_IP6` before those of `$LOCAL_TUN_IP` and `$REMOTE_TUN_IP`. -/
def exampleSubsts : List Subst :=
  [("$LOCAL_TUN_IP6".toList, "64:ff9b::c0a8:c001".toList),
   ("$REMOTE_TUN_IP6".toList, "64:ff9b::c0a8:c0fe".toList),
   ("$LOCAL_TUN_IP".toList, "192.168.192.1".toList),
   ("$REMOTE_TUN_IP".toList, "192.168.192.254".toList),
   ("$EXT_IP".toList, "203.0.113.7".toList),
   ("$EXT_IF_NAME".toList, "eth0".toList),
   ("$EXT_GW_IP".toList, "198.51.100.1".toList),
   ("$IF_NAME".toList, "tun0".toList)]

/-- A character of a variable name: a letter, a digit or `_`. -/
def isNameChar (c : Char) : Bool :=
  c.isAlphanum || c == '_'

/-- The variables that occur in a template: for every `$` followed by a name, the `$` with
the longest name that follows it. -/
def templateVars : List Char → List (List Char)
  | [] => []
  | c :: rest =>
    if c == '$' && (rest.takeWhile isNameChar) ≠ [] then
      (c :: rest.takeWhile isNameChar) :: templateVars rest
    else templateVars rest

/-- An array of strings ends with `NULL` and holds no `NULL` before its end. -/
def nullTerminated (arr : List (Option String)) : Bool :=
  arr.getLast? == some none && arr.dropLast.all (fun x => x.isSome)

/-- The property of an array returned by `firewall_rules_cmds`: it is absent, or ends with
`NULL` and every variable of its templates is one of the eight. -/
def cmdsWellFormed (cmds : Option (List (Option String))) : Bool :=
  match cmds with
  | none => true
  | some arr =>
    nullTerminated arr &&
      arr.all (fun x =>
        match x with
        | none => true
        | some t => (templateVars t.toList).all (fun v => substVars.contains (String.mk v)))

/-! ## `tun_read` and `tun_write` on the BSD family (os.c, lines 129-194) -/

/-- A byte of a packet. -/
abbrev Byte := Fin 256

/-- The byte order of the host. -/
inductive Endian where
  | little
  | big
  deriving DecidableEq, Repr

/-- The address family `AF_INET` of `<sys/socket.h>`. -/
def AF_INET : Nat := 2

/-- The bytes of a `uint32_t` from the most significant one down. -/
def be32 (x : Nat) : List Byte :=
  [Fin.ofNat (x / 2 ^ 24), Fin.ofNat (x / 2 ^ 16), Fin.ofNat (x / 2 ^ 8), Fin.ofNat x]

/-- The value of a `uint32_t` with its four bytes in the opposite order. -/
def bswap32 (x : Nat) : Nat :=
  (x % 256) * 2 ^ 24 + (x / 2 ^ 8 % 256) * 2 ^ 16 + (x / 2 ^ 16 % 256) * 2 ^ 8 + x / 2 ^ 24 % 256

/-- The function `htonl`: host to network (big-endian) byte order. -/
def htonl (e : Endian) (x : Nat) : Nat :=
  match e with
  | .big => x % 2 ^ 32
  | .little => bswap32 x

/-- The four bytes a `uint32_t` variable occupies in memory, in address order: what an
`iovec` with `iov_base = &family` and `iov_len = sizeof family` covers. -/
def store32 (e : Endian) (x : Nat) : List Byte :=
  match e with
  | .big => be32 x
  | .little => (be32 x).reverse

/-- The size `sizeof family` of the header. -/
def FAMILY_SIZE : Nat := 4

/-- What a call of `tun_write` does. -/
structure TunWrite where
  /-- The value returned. -/
  ret : Int
  /-- The value the function assigns to `errno`, if it assigns one. -/
  errno : Option Errno
  /-- The bytes the two `iovec`s given to `writev` cover, when `writev` is called. -/
  datagram : Option (List Byte)
  deriving DecidableEq, Repr

/-- The function `tun_write` of the BSD branch.  `af_inet6` is the constant `AF_INET6` of the
platform, `writev` gives the return value of the system call for the bytes it is handed, and
`data` is the buffer of `size = data.length` bytes. -/
def tun_write (e : Endian) (af_inet6 : Nat) (writev : List Byte → Int) (data : List Byte) :
    TunWrite :=
  if data.length < 20 then { ret := 0, errno := none, datagram := none }
  else
    let family : Option Nat :=
      match (data.headD 0).val >>> 4 with
      | 4 => some (htonl e AF_INET)
      | 6 => some (htonl e af_inet6)
      | _ => none
    match family with
    | none => { ret := -1, errno := some .EINVAL, datagram := none }
    | some family =>
      let iov := store32 e family ++ data
      let ret := writev iov
      if ret ≤ 0 then { ret := ret, errno := none, datagram := some iov }
      else if ret ≤ (FAMILY_SIZE : Int) then { ret := 0, errno := none, datagram := some iov }
      else { ret := ret - (FAMILY_SIZE : Int), errno := none, datagram := some iov }

/-- What a call of `readv(fd, iov, 2)` does: its return value and the bytes it stores in
the two buffers, from their starts. -/
structure Readv where
  /-- The value returned. -/
  ret : Int
  /-- The bytes stored in `family`. -/
  family : List Byte
  /-- The bytes stored in `data`. -/
  data : List Byte

/-- What a call of `tun_read` does. -/
structure TunRead where
  /-- The value returned. -/
  ret : Int
  /-- The buffer `data` after the call. -/
  data : List Byte
  deriving DecidableEq, Repr

/-- The function `tun_read` of the BSD branch.  `readv` gives what the system call does for
the lengths of the two `iovec`s, and `data` is the buffer of `size = data.length` bytes as
it is before the call. -/
def tun_read (readv : Nat → Nat → Readv) (data : List Byte) : TunRead :=
  let r := readv FAMILY_SIZE data.length
  let data' := r.data ++ data.drop r.data.length
  if r.ret ≤ 0 then { ret := -1, data := data' }
  else if r.ret ≤ (FAMILY_SIZE : Int) then { ret := 0, data := data' }
  else { ret := r.ret - (FAMILY_SIZE : Int), data := data' }

/-- A tunnel device that accepts a whole datagram: `writev` returns the number of bytes it
was handed. -/
def deviceWritev (iov : List Byte) : Int :=
  iov.length

/-- A tunnel device that delivers the datagram `d`: `readv` scatters it over the two
buffers, as much of it as they hold, and returns the number of bytes stored. -/
def deviceReadv (d : List Byte) (len0 len1 : Nat) : Readv :=
  { ret := ((d.take len0).length + ((d.drop len0).take len1).length : Nat),
    family := d.take len0,
    data := (d.drop len0).take len1 }

/-! ## `tun_create` (os.c, lines 27-101) -/

/-- The string `snprintf(buf, size, "%s", s)` leaves in `buf`, for `size > 0`: at most
`size - 1` characters of the C string `s`. -/
def snprintf_s (size : Nat) (s : List Char) : List Char :=
  (cstr s).take (size - 1)

/-- What a call of `tun_create` of the generic branch does. -/
structure TunCreate where
  /-- The value returned. -/
  ret : Int
  /-- The value the function assigns to `errno`, if it assigns one. -/
  errno : Option Errno
  /-- The string written to `if_name`, if one is written. -/
  if_name : Option (List Char)
  /-- The path given to `open`, if `open` is called. -/
  path : Option (List Char)
  deriving DecidableEq, Repr

/-- The function `tun_create` of the branch that is neither Linux nor Apple (lines 85-100).
`ifnamsiz` is the constant `IFNAMSIZ` of the platform, `sys_open` gives the return value of
`open(path, O_RDWR)`, and `wanted_name` is `none` for `NULL`. -/
def tun_create (ifnamsiz : Nat) (sys_open : List Char → Int) (wanted_name : Option (List Char)) :
    TunCreate :=
  match wanted_name with
  | none => { ret := -1, errno := some .EINVAL, if_name := none, path := none }
  | some name =>
    let if_name := snprintf_s ifnamsiz name
    let path := snprintf_s 64 ("/dev/".toList ++ cstr name)
    { ret := sys_open path, errno := none, if_name := some if_name, path := some path }

/-- A system call made by `tun_create_by_id`. -/
inductive SysCall where
  /-- The call `socket(PF_SYSTEM, SOCK_DGRAM, SYSPROTO_CONTROL)`. -/
  | socket
  /-- The call `ioctl(fd, CTLIOCGINFO, &ci)`. -/
  | ioctl
  /-- The call `connect` with `sc_unit` set to the given unit. -/
  | connect (sc_unit : Nat)
  /-- The call `close(fd)`. -/
  | close
  deriving DecidableEq, Repr

/-- How an attempt to create the device of a control unit ends: one of the three system
calls fails with an `errno`, or the socket is connected. -/
inductive Attempt where
  | socket_fails (e : Errno)
  | ioctl_fails (e : Errno)
  | connect_fails (e : Errno)
  | connected (fd : Nat)
  deriving DecidableEq, Repr

/-- What a call of `tun_create` of the Apple branch does. -/
structure UtunCreate where
  /-- The value returned. -/
  ret : Int
  /-- The value of `errno` the call leaves, when it returns `-1` for a reason. -/
  errno : Option Errno
  /-- The string written to `if_name`, if one is written. -/
  if_name : Option (List Char)
  /-- The system calls made, in order. -/
  calls : List SysCall
  deriving DecidableEq, Repr

/-- The decimal digits of `n`, the most significant first and at most `fuel` of them, put in
front of `acc`. -/
def utoaAux : Nat → Nat → List Char → List Char
  | 0, _, acc => acc
  | fuel + 1, n, acc =>
    if n / 10 = 0 then Char.ofNat (48 + n % 10) :: acc
    else utoaAux fuel (n / 10) (Char.ofNat (48 + n % 10) :: acc)

/-- What `%u` prints for an `unsigned int`: its decimal digits, at most ten. -/
def utoa (n : Nat) : List Char :=
  utoaAux 10 n []

/-- The value of a run of decimal digits. -/
def atou (s : List Char) : Nat :=
  s.foldl (fun acc c => acc * 10 + (c.toNat - 48)) 0

/-- The function `tun_create_by_id` (lines 28-63).  `unit` gives how the attempt for the unit
requested ends; `id + 1` is computed in `unsigned int`. -/
def tun_create_by_id (ifnamsiz : Nat) (unit : Nat → Attempt) (id : Nat) : UtunCreate :=
  let sc_unit := (id + 1) % 2 ^ 32
  match unit sc_unit with
  | .socket_fails e => { ret := -1, errno := some e, if_name := none, calls := [.socket] }
  | .ioctl_fails e =>
    { ret := -1, errno := some e, if_name := none, calls := [.socket, .ioctl, .close] }
  | .connect_fails e =>
    { ret := -1, errno := some e, if_name := none,
      calls := [.socket, .ioctl, .connect sc_unit, .close] }
  | .connected fd =>
    { ret := fd, errno := none,
      if_name := some (snprintf_s ifnamsiz ("utun".toList ++ utoa id)),
      calls := [.socket, .ioctl, .connect sc_unit] }

/-- The sign a numeric conversion of `sscanf` accepts: whether it is `-`, and the text after
it. -/
def scan_sign : List Char → Bool × List Char
  | '-' :: r => (true, r)
  | '+' :: r => (false, r)
  | r => (false, r)

/-- The value `strtoumax` gives for a sign and a run of decimal digits: a value that does
not fit 64 bits becomes `UINTMAX_MAX`, and one that fits is negated in 64 bits after a
`-`. -/
def strtoumax10 (neg : Bool) (digits : List Char) : Nat :=
  if atou digits ≥ 2 ^ 64 then 2 ^ 64 - 1
  else if neg then (2 ^ 64 - atou digits) % 2 ^ 64
  else atou digits

/-- The conversion `%u` of `sscanf`: it skips white space, accepts a sign, and reads the
longest run of digits, which must not be empty; what follows the digits is not read.  The C
library converts the digits as `strtoumax` does and stores the result in the `unsigned int`,
which keeps its low 32 bits. -/
def scan_u (s : List Char) : Option Nat :=
  let signed := scan_sign (s.dropWhile isspace)
  let digits := signed.2.takeWhile Char.isDigit
  if digits = [] then none
  else some (strtoumax10 signed.1 digits % 2 ^ 32)

/-- The call `sscanf(wanted_name, "utun%u", &id)`: the value stored in `id` when the call
returns `1`.  The characters `utun` must come first, then the conversion `%u`. -/
def sscanf_utun (wanted_name : List Char) : Option Nat :=
  match cstr wanted_name with
  | 'u' :: 't' :: 'u' :: 'n' :: rest => scan_u rest
  | _ => none

/-- A name that begins as `sscanf` with the format `utun%u` wants it: the characters `utun`,
then any white space, an optional sign and at least one decimal digit; `rest` is free. -/
def UtunLike (name : List Char) : Prop :=
  ∃ ws sign digits rest, name = "utun".toList ++ ws ++ sign ++ digits ++ rest ∧
    (∀ c ∈ ws, isspace c = true) ∧ (sign = [] ∨ sign = ['-'] ∨ sign = ['+']) ∧
    digits ≠ [] ∧ ∀ c ∈ digits, c.isDigit = true

/-- The loop `for (id = 0; id < 32; id++)` of lines 71-76, from `id` on, for `n` more
values of `id`. -/
def tun_create_first (ifnamsiz : Nat) (unit : Nat → Attempt) : Nat → Nat → UtunCreate
  | 0, _ => { ret := -1, errno := none, if_name := none, calls := [] }
  | n + 1, id =>
    let r := tun_create_by_id ifnamsiz unit id
    if r.ret ≠ -1 then r
    else
      let r' := tun_create_first ifnamsiz unit n (id + 1)
      { r' with errno := if n = 0 then r.errno else r'.errno, calls := r.calls ++ r'.calls }

/-- The function `tun_create` of the Apple branch (lines 65-83); `wanted_name` is `none` for
`NULL`. -/
def tun_create_apple (ifnamsiz : Nat) (unit : Nat → Attempt) (wanted_name : Option (List Char)) :
    UtunCreate :=
  if wanted_name = none ∨ (wanted_name.getD []).headD NUL = NUL then
    tun_create_first ifnamsiz unit 32 0
  else
    match sscanf_utun (wanted_name.getD []) with
    | none => { ret := -1, errno := some .EINVAL, if_name := none, calls := [] }
    | some id => tun_create_by_id ifnamsiz unit id

/-! ## C strings: lemmas -/

theorem cstr_nil : cstr [] = [] := rfl

theorem cstr_cons_nul (s : List Char) : cstr (NUL :: s) = [] := by
  simp [cstr]

theorem cstr_cons_ne {c : Char} (h : c ≠ NUL) (s : List Char) : cstr (c :: s) = c :: cstr s := by
  simp [cstr, List.takeWhile_cons, h]

theorem ne_nul_of_mem_cstr {s : List Char} {c : Char} (h : c ∈ cstr s) : c ≠ NUL := by
  have := List.mem_takeWhile_imp h
  simpa using this

theorem cstr_eq_self {s : List Char} (h : ∀ c ∈ s, c ≠ NUL) : cstr s = s := by
  induction s with
  | nil => rfl
  | cons c s ih =>
    rw [cstr_cons_ne (h c (List.mem_cons_self c s)), ih (fun d hd => h d (List.mem_cons_of_mem c hd))]

theorem cstr_idem (s : List Char) : cstr (cstr s) = cstr s :=
  cstr_eq_self (fun _ h => ne_nul_of_mem_cstr h)

theorem cstr_isPrefix (s : List Char) : cstr s <+: s :=
  List.takeWhile_prefix _

theorem take_strlen (s : List Char) : s.take (strlen s) = cstr s := by
  exact (List.prefix_iff_eq_take.1 (cstr_isPrefix s)).symm

theorem cstr_append_of_nul_free {a : List Char} (h : ∀ c ∈ a, c ≠ NUL) (b : List Char) :
    cstr (a ++ b) = a ++ cstr b := by
  induction a with
  | nil => rfl
  | cons c a ih =>
    rw [List.cons_append, cstr_cons_ne (h c (List.mem_cons_self c a)),
      ih (fun d hd => h d (List.mem_cons_of_mem c hd)), List.cons_append]

theorem strncmp_eq_iff (pat s : List Char) :
    strncmp_eq pat s (strlen pat) = true ↔ cstr pat <+: s := by
  induction pat generalizing s with
  | nil => simp [strlen, cstr, strncmp_eq]
  | cons p ps ih =>
    by_cases hp : p = NUL
    · subst hp
      simp [strlen, cstr_cons_nul, strncmp_eq]
    · have hlen : strlen (p :: ps) = strlen ps + 1 := by simp [strlen, cstr_cons_ne hp]
      rw [hlen, cstr_cons_ne hp]
      cases s with
      | nil => simp [strncmp_eq, hp]
      | cons q qs =>
        by_cases hq : p = q
        · subst hq
          simp [strncmp_eq, hp, ih qs, List.cons_prefix_cons]
        · simp [strncmp_eq, hq, List.cons_prefix_cons]

theorem find_subst_some {substs : List Subst} {s : List Char} {row : Subst}
    (h : find_subst substs s = some row) : row ∈ substs ∧ cstr row.1 <+: s := by
  induction substs with
  | nil => simp [find_subst] at h
  | cons r more ih =>
    obtain ⟨pat, sub⟩ := r
    by_cases hm : strncmp_eq pat s (strlen pat) = true
    · simp [find_subst, hm] at h
      subst h
      exact ⟨List.mem_cons_self _ _, (strncmp_eq_iff pat s).1 hm⟩
    · simp [find_subst, hm] at h
      exact ⟨List.mem_cons_of_mem _ (ih h).1, (ih h).2⟩

theorem find_subst_eq_none {substs : List Subst} {s : List Char} :
    find_subst substs s = none ↔ ∀ row ∈ substs, ¬ cstr row.1 <+: s := by
  induction substs with
  | nil => simp [find_subst]
  | cons r more ih =>
    obtain ⟨pat, sub⟩ := r
    by_cases hm : strncmp_eq pat s (strlen pat) = true
    · have := (strncmp_eq_iff pat s).1 hm
      simp [find_subst, hm, this]
    · have := mt (strncmp_eq_iff pat s).2 hm
      simp [find_subst, hm, this, ih]

theorem find_subst_congr {substs : List Subst} {s t : List Char}
    (h : ∀ row ∈ substs, (cstr row.1 <+: s ↔ cstr row.1 <+: t)) :
    find_subst substs s = find_subst substs t := by
  induction substs with
  | nil => rfl
  | cons r more ih =>
    obtain ⟨pat, sub⟩ := r
    have h1 := h (pat, sub) (List.mem_cons_self _ _)
    have h2 := ih (fun row hr => h row (List.mem_cons_of_mem _ hr))
    have h3 : strncmp_eq pat s (strlen pat) = strncmp_eq pat t (strlen pat) := by
      rw [Bool.eq_iff_iff, strncmp_eq_iff, strncmp_eq_iff]; exact h1
    simp [find_subst, h3, h2]
/-! ## Tokens and expansion: lemmas -/

theorem tokenHead_cons_space {c : Char} (h : isspace c = true) (r : List Char) :
    tokenHead (c :: r) = [] := by
  simp [tokenHead, h]

theorem tokenTail_cons_space {c : Char} (h : isspace c = true) (r : List Char) :
    tokenTail (c :: r) = c :: r := by
  simp [tokenTail, h]

theorem tokenHead_cons_nonspace {c : Char} (h : isspace c = false) (r : List Char) :
    tokenHead (c :: r) = c :: tokenHead r := by
  simp [tokenHead, h]

theorem tokenTail_cons_nonspace {c : Char} (h : isspace c = false) (r : List Char) :
    tokenTail (c :: r) = tokenTail r := by
  simp [tokenTail, h]

theorem tokenHead_append {p : List Char} (h : ∀ c ∈ p, isspace c = false) (s : List Char) :
    tokenHead (p ++ s) = p ++ tokenHead s := by
  induction p with
  | nil => rfl
  | cons c p ih =>
    rw [List.cons_append, tokenHead_cons_nonspace (h c (List.mem_cons_self c p)),
      ih (fun d hd => h d (List.mem_cons_of_mem c hd)), List.cons_append]

theorem tokenTail_append {p : List Char} (h : ∀ c ∈ p, isspace c = false) (s : List Char) :
    tokenTail (p ++ s) = tokenTail s := by
  induction p with
  | nil => rfl
  | cons c p ih =>
    rw [List.cons_append, tokenTail_cons_nonspace (h c (List.mem_cons_self c p)),
      ih (fun d hd => h d (List.mem_cons_of_mem c hd))]

theorem tokenHead_isPrefix (s : List Char) : tokenHead s <+: s :=
  List.takeWhile_prefix _

theorem prefix_tokenHead_iff {p : List Char} (h : ∀ c ∈ p, isspace c = false) (s : List Char) :
    p <+: tokenHead s ↔ p <+: s := by
  constructor
  · intro hp
    exact hp.trans (tokenHead_isPrefix s)
  · rintro ⟨t, rfl⟩
    rw [tokenHead_append h]
    exact List.prefix_append _ _

theorem tokens_cons_space {c : Char} (h : isspace c = true) (r : List Char) :
    tokens (c :: r) = tokens r := by
  simp [tokens, h]

theorem tokens_cons_nonspace {c : Char} (h : isspace c = false) (r : List Char) :
    tokens (c :: r) = (c :: tokenHead r) :: tokens (tokenTail r) := by
  induction r generalizing c with
  | nil => simp [tokens, h, tokenHead, tokenTail]
  | cons d r ih =>
    by_cases hd : isspace d = true
    · simp [tokens, h, hd, tokenHead, tokenTail]
    · have hd' : isspace d = false := by simpa using hd
      have := ih hd'
      rw [tokens, if_neg (by simp [h])]
      simp only [hd', Bool.false_eq_true, if_false]
      rw [this, tokenHead_cons_nonspace hd', tokenTail_cons_nonspace hd']

theorem expand_nil (substs : List Subst) : expand substs [] = [] := by
  simp [expand, expandGo]

theorem expandGo_eq_drop (substs : List Subst) (k : Nat) (s : List Char) :
    expandGo substs k s = expand substs (s.drop k) := by
  induction s generalizing k with
  | nil => simp [expand, expandGo]
  | cons c r ih =>
    cases k with
    | zero => rfl
    | succ k => simp [expandGo, ih]

theorem expand_of_find_none {substs : List Subst} {c : Char} {r : List Char}
    (h : find_subst substs (c :: r) = none) :
    expand substs (c :: r) = c :: expand substs r := by
  simp [expand, expandGo, h]

theorem expand_of_find_some {substs : List Subst} {s : List Char} {pat sub : List Char}
    (h : find_subst substs s = some (pat, sub)) (hpos : 0 < strlen pat) :
    expand substs s = cstr sub ++ expand substs (s.drop (strlen pat)) := by
  cases s with
  | nil =>
    have := (find_subst_some h).2
    simp [strlen] at hpos this
    simp [this] at hpos
  | cons c r =>
    obtain ⟨n, hn⟩ : ∃ n, strlen pat = n + 1 := ⟨strlen pat - 1, by omega⟩
    simp [expand, expandGo, h, hn]
    exact expandGo_eq_drop substs n r

theorem find_subst_tokenHead {substs : List Subst} (hws : NoSpacePatterns substs) (s : List Char) :
    find_subst substs (tokenHead s) = find_subst substs s :=
  find_subst_congr (fun row hr => prefix_tokenHead_iff (hws row hr) s)
/-! ## The layout of `cmdbuf` and `args`: lemmas -/

theorem layout_append (l m : List (List Char)) : layout (l ++ m) = layout l ++ layout m := by
  induction l with
  | nil => rfl
  | cons a l ih => simp [layout, ih]

theorem layout_snoc (l : List (List Char)) (t : List Char) :
    layout (l ++ [t]) = layout l ++ t ++ [NUL] := by
  simp [layout_append, layout]

theorem length_offsets (b : Nat) (l : List (List Char)) : (offsets b l).length = l.length := by
  induction l generalizing b with
  | nil => rfl
  | cons a l ih => simp [offsets, ih]

theorem offsets_snoc (b : Nat) (l : List (List Char)) (t : List Char) :
    offsets b (l ++ [t]) = offsets b l ++ [b + (layout l).length] := by
  induction l generalizing b with
  | nil => simp [offsets, layout]
  | cons a l ih =>
    show b :: offsets (b + a.length + 1) (l ++ [t])
      = (b :: offsets (b + a.length + 1) l) ++ [b + (a ++ NUL :: layout l).length]
    rw [ih]
    have : b + a.length + 1 + (layout l).length = b + (a ++ NUL :: layout l).length := by
      simp only [List.length_append, List.length_cons]
      omega
    rw [this, List.cons_append]

theorem cstr_drop_layout (pre : List Char) (a : List Char) (rest : List Char)
    (ha : ∀ c ∈ a, c ≠ NUL) : cstr ((pre ++ (a ++ NUL :: rest)).drop pre.length) = a := by
  rw [List.drop_left, cstr_append_of_nul_free ha, cstr_cons_nul, List.append_nil]

theorem map_offsets_layout (pre : List Char) (l : List (List Char))
    (hl : ∀ a ∈ l, ∀ c ∈ a, c ≠ NUL) :
    (offsets pre.length l).map (fun off => cstr ((pre ++ layout l).drop off)) = l := by
  induction l generalizing pre with
  | nil => rfl
  | cons a l ih =>
    simp only [offsets, layout, List.map_cons]
    rw [cstr_drop_layout pre a (layout l) (hl a (List.mem_cons_self a l))]
    have h := ih (pre ++ (a ++ [NUL])) (fun b hb => hl b (List.mem_cons_of_mem a hb))
    simp only [List.length_append, List.length_cons, List.length_nil, List.append_assoc,
      List.singleton_append] at h
    rw [← Nat.add_assoc] at h
    rw [h]

theorem argv_layout (l : List (List Char)) (hl : ∀ a ∈ l, ∀ c ∈ a, c ≠ NUL) :
    argv { args := offsets 0 l, cmdbuf := layout l } = l := by
  have := map_offsets_layout [] l hl
  simpa [argv] using this

/-! ## The arguments still to come: lemmas -/

theorem pieces_nil (substs : List Subst) (cur : Option (List Char)) :
    pieces substs cur [] = cur.toList := by
  cases cur with
  | none => simp [pieces, tokens]
  | some t => simp [pieces, tokens, tokenHead, tokenTail, expand_nil]

theorem pieces_none_space (substs : List Subst) {c : Char} (h : isspace c = true)
    (r : List Char) : pieces substs none (c :: r) = pieces substs none r := by
  simp [pieces, tokens_cons_space h]

theorem pieces_some_space (substs : List Subst) {c : Char} (h : isspace c = true)
    (t r : List Char) : pieces substs (some t) (c :: r) = t :: pieces substs none r := by
  simp [pieces, tokenHead_cons_space h, tokenTail_cons_space h, tokens_cons_space h, expand_nil]

theorem pieces_none_nonspace (substs : List Subst) {c : Char} (h : isspace c = false)
    (r : List Char) : pieces substs none (c :: r) = pieces substs (some []) (c :: r) := by
  simp [pieces, tokens_cons_nonspace h, tokenHead_cons_nonspace h, tokenTail_cons_nonspace h]

theorem pieces_some_plain {substs : List Subst} (hws : NoSpacePatterns substs) {c : Char}
    (h : isspace c = false) {r : List Char} (hf : find_subst substs (c :: r) = none)
    (t : List Char) :
    pieces substs (some t) (c :: r) = pieces substs (some (t ++ [c])) r := by
  have h1 : find_subst substs (c :: tokenHead r) = none := by
    rw [← tokenHead_cons_nonspace h, find_subst_tokenHead hws, hf]
  simp [pieces, tokenHead_cons_nonspace h, tokenTail_cons_nonspace h, expand_of_find_none h1]

theorem pieces_some_subst {substs : List Subst} (hws : NoSpacePatterns substs) {s : List Char}
    {pat sub : List Char} (hf : find_subst substs s = some (pat, sub)) (hpos : 0 < strlen pat)
    (t : List Char) :
    pieces substs (some t) s = pieces substs (some (t ++ cstr sub)) (s.drop (strlen pat)) := by
  obtain ⟨hmem, s', hs⟩ := find_subst_some hf
  have hp := hws (pat, sub) hmem
  simp only at hs hp
  subst hs
  have h1 : find_subst substs (tokenHead (cstr pat ++ s')) = some (pat, sub) := by
    rw [find_subst_tokenHead hws, hf]
  have h2 : (cstr pat ++ s').drop (strlen pat) = s' := by
    simp [strlen]
  have h3 : (tokenHead (cstr pat ++ s')).drop (strlen pat) = tokenHead s' := by
    rw [tokenHead_append hp]; simp [strlen]
  simp only [pieces, h2, expand_of_find_some h1 hpos, h3, tokenTail_append hp, List.append_assoc]
/-! ## One iteration of the parsing loop: lemmas -/

theorem step_nil (substs : List Subst) (st : BuildState) :
    shell_cmd_step substs [] st = .stop st := rfl

theorem step_space_none (substs : List Subst) {c : Char} (h0 : c ≠ NUL)
    (h : isspace c = true) (r : List Char) (done : List (List Char)) :
    shell_cmd_step substs (c :: r) (conc done none) = .next r (conc done none) := by
  simp [shell_cmd_step, h0, h, conc]

theorem step_space_some (substs : List Subst) {c : Char} (h0 : c ≠ NUL)
    (h : isspace c = true) (r : List Char) (done : List (List Char)) (t : List Char) :
    shell_cmd_step substs (c :: r) (conc done (some t)) =
      if (layout done ++ t).length ≥ CMDBUF_SIZE then .fail .ENOSPC
      else .next r (conc (done ++ [t]) none) := by
  simp [shell_cmd_step, h0, h, conc, layout_snoc, offsets_snoc]

theorem step_nonspace_none (substs : List Subst) {c : Char} (h0 : c ≠ NUL)
    (h : isspace c = false) (r : List Char) (done : List (List Char)) :
    shell_cmd_step substs (c :: r) (conc done none) =
      if done.length ≥ ARGS_SIZE then .fail .ENOSPC
      else shell_cmd_step substs (c :: r) (conc done (some [])) := by
  by_cases hd : done.length ≥ ARGS_SIZE
  · simp [shell_cmd_step, h0, h, conc, length_offsets, hd]
  · simp [shell_cmd_step, h0, h, conc, length_offsets, hd]

theorem step_some_subst (substs : List Subst) {c : Char} (h0 : c ≠ NUL)
    (h : isspace c = false) {r : List Char} {pat sub : List Char}
    (hf : find_subst substs (c :: r) = some (pat, sub)) (done : List (List Char))
    (t : List Char) :
    shell_cmd_step substs (c :: r) (conc done (some t)) =
      if CMDBUF_SIZE - (layout done ++ t).length ≤ strlen sub then .fail .ENOSPC
      else .next ((c :: r).drop (strlen pat)) (conc done (some (t ++ cstr sub))) := by
  simp [shell_cmd_step, h0, h, conc, hf, take_strlen]

theorem step_some_plain (substs : List Subst) {c : Char} (h0 : c ≠ NUL)
    (h : isspace c = false) {r : List Char}
    (hf : find_subst substs (c :: r) = none) (done : List (List Char)) (t : List Char) :
    shell_cmd_step substs (c :: r) (conc done (some t)) =
      if (layout done ++ t).length ≥ CMDBUF_SIZE then .fail .ENOSPC
      else .next r (conc done (some (t ++ [c]))) := by
  simp [shell_cmd_step, h0, h, conc, hf]

theorem loop_succ (substs : List Subst) (fuel : Nat) (s : List Char) (st : BuildState) :
    shell_cmd_loop substs (fuel + 1) s st =
      match shell_cmd_step substs s st with
      | .stop st' => some (.ok st')
      | .fail e => some (.error e)
      | .next rest st' => shell_cmd_loop substs fuel rest st' := rfl

/-- A pattern of length `0` that matches stops the loop from ever finishing: the position
in the template does not move. -/
theorem loop_ne_ok_of_empty_match {substs : List Subst} {c : Char} {r : List Char}
    {pat sub : List Char} (h0 : c ≠ NUL) (h : isspace c = false)
    (hf : find_subst substs (c :: r) = some (pat, sub)) (hlen : strlen pat = 0)
    (fuel : Nat) (st st' : BuildState) :
    shell_cmd_loop substs fuel (c :: r) st ≠ some (.ok st') := by
  induction fuel generalizing st with
  | zero => simp [shell_cmd_loop]
  | succ fuel ih =>
    rw [loop_succ]
    simp only [shell_cmd_step, h0, h, hf, hlen, List.drop_zero, beq_iff_eq, if_false,
      Bool.false_eq_true]
    split_ifs <;> first | exact ih _ | simp

theorem nul_free_drop {s : List Char} (h : ∀ c ∈ s, c ≠ NUL) (n : Nat) :
    ∀ c ∈ s.drop n, c ≠ NUL :=
  fun c hc => h c (List.mem_of_mem_drop hc)

/-- The parsing loop, when it finishes, has stored the expansions of the tokens. -/
theorem loop_ok_conc {substs : List Subst} (hws : NoSpacePatterns substs) (fuel : Nat) :
    ∀ (s : List Char) (done : List (List Char)) (cur : Option (List Char)) (st' : BuildState),
      (∀ c ∈ s, c ≠ NUL) →
      shell_cmd_loop substs fuel s (conc done cur) = some (.ok st') →
      ∃ done' cur', st' = conc done' cur' ∧
        done' ++ cur'.toList = done ++ pieces substs cur s := by
  induction fuel with
  | zero => intro s done cur st' _ h; simp [shell_cmd_loop] at h
  | succ fuel ih =>
    intro s done cur st' hs h
    rw [loop_succ] at h
    cases s with
    | nil =>
      rw [step_nil] at h
      simp only [Option.some.injEq, Except.ok.injEq] at h
      exact ⟨done, cur, h.symm, by rw [pieces_nil]⟩
    | cons c r =>
      have h0 : c ≠ NUL := hs c (List.mem_cons_self c r)
      have hr : ∀ d ∈ r, d ≠ NUL := fun d hd => hs d (List.mem_cons_of_mem c hd)
      by_cases hsp : isspace c = true
      · cases cur with
        | none =>
          rw [step_space_none substs h0 hsp] at h
          obtain ⟨done', cur', h1, h2⟩ := ih r done none st' hr h
          exact ⟨done', cur', h1, by rw [h2, pieces_none_space substs hsp]⟩
        | some t =>
          rw [step_space_some substs h0 hsp] at h
          split_ifs at h with hlen
          · simp at h
          · obtain ⟨done', cur', h1, h2⟩ := ih r (done ++ [t]) none st' hr h
            exact ⟨done', cur', h1, by rw [h2, pieces_some_space substs hsp]; simp⟩
      · have hsp' : isspace c = false := by simpa using hsp
        -- the locals once the token has been opened
        have key : ∀ t : List Char,
            (match shell_cmd_step substs (c :: r) (conc done (some t)) with
              | .stop st' => some (.ok st')
              | .fail e => some (.error e)
              | .next rest st' => shell_cmd_loop substs fuel rest st') = some (.ok st') →
            ∃ done' cur', st' = conc done' cur' ∧
              done' ++ cur'.toList = done ++ pieces substs (some t) (c :: r) := by
          intro t h
          cases hf : find_subst substs (c :: r) with
          | none =>
            rw [step_some_plain substs h0 hsp' hf] at h
            split_ifs at h with hlen
            · simp at h
            · obtain ⟨done', cur', h1, h2⟩ := ih r done (some (t ++ [c])) st' hr h
              exact ⟨done', cur', h1, by rw [h2, pieces_some_plain hws hsp' hf]⟩
          | some row =>
            obtain ⟨pat, sub⟩ := row
            rw [step_some_subst substs h0 hsp' hf] at h
            split_ifs at h with hlen
            · simp at h
            · by_cases hpos : strlen pat = 0
              · rw [hpos, List.drop_zero] at h
                exact absurd h (loop_ne_ok_of_empty_match h0 hsp' hf hpos fuel _ st')
              · obtain ⟨done', cur', h1, h2⟩ :=
                  ih _ done (some (t ++ cstr sub)) st' (nul_free_drop hs _) h
                exact ⟨done', cur', h1, by
                  rw [h2, pieces_some_subst hws hf (Nat.pos_of_ne_zero hpos)]⟩
        cases cur with
        | none =>
          rw [step_nonspace_none substs h0 hsp'] at h
          split_ifs at h with hlen
          · simp at h
          · rw [pieces_none_nonspace substs hsp']
            exact key [] h
        | some t => exact key t h

/-! ## Limits, errors and termination of the parsing loop: lemmas -/

/-- What an iteration of the loop can do: leave the locals as they are and stop, fail with
`ENOSPC`, or go on with at most 4096 bytes in `cmdbuf` and at most 64 pointers in `args`. -/
theorem step_inv (substs : List Subst) (s : List Char) (st : BuildState)
    (hb : st.cmdbuf.length ≤ CMDBUF_SIZE ∧ st.args.length ≤ ARGS_SIZE) :
    match shell_cmd_step substs s st with
    | .stop st' => st' = st
    | .fail e => e = .ENOSPC
    | .next rest st' =>
      (st'.cmdbuf.length ≤ CMDBUF_SIZE ∧ st'.args.length ≤ ARGS_SIZE) ∧
        (NonemptyPatterns substs → rest.length < s.length) := by
  obtain ⟨hb1, hb2⟩ := hb
  cases s with
  | nil => simp [shell_cmd_step]
  | cons c r =>
    by_cases h0 : c = NUL
    · simp [shell_cmd_step, h0]
    by_cases hsp : isspace c = true
    · by_cases hs : st.is_space = true
      · simp [shell_cmd_step, h0, hsp, hs, hb1, hb2]
      · by_cases hl : st.cmdbuf.length ≥ CMDBUF_SIZE
        · simp [shell_cmd_step, h0, hsp, hs, hl]
        · simp only [shell_cmd_step, h0, hsp, hs, hl, beq_iff_eq, if_false, if_true,
            Bool.not_eq_true, Bool.not_false, Bool.not_true]
          simp only [List.length_append, List.length_cons, List.length_nil]
          exact ⟨⟨by omega, hb2⟩, fun _ => by omega⟩
    · have hdrop : ∀ {pat sub : List Char}, find_subst substs (c :: r) = some (pat, sub) →
          NonemptyPatterns substs → ((c :: r).drop (strlen pat)).length < (c :: r).length := by
        intro pat sub hf hne
        have := hne (pat, sub) (find_subst_some hf).1
        have hpos : 0 < strlen pat := List.length_pos.2 this
        simp only [List.length_drop, List.length_cons]
        omega
      have hargs : st.is_space = true → ¬ st.args.length ≥ ARGS_SIZE →
          (st.args ++ [st.cmdbuf.length]).length ≤ ARGS_SIZE := by
        intro _ h; simp only [List.length_append, List.length_cons, List.length_nil]; omega
      by_cases hs : st.is_space = true
      · by_cases ha : st.args.length ≥ ARGS_SIZE
        · simp [shell_cmd_step, h0, hsp, hs, ha]
        · cases hf : find_subst substs (c :: r) with
          | none =>
            by_cases hl : st.cmdbuf.length ≥ CMDBUF_SIZE
            · simp [shell_cmd_step, h0, hsp, hs, ha, hf, hl]
            · simp only [shell_cmd_step, h0, hsp, hs, ha, hf, hl, beq_iff_eq, if_false, if_true,
                Bool.false_eq_true, decide_False, Bool.and_false]
              simp only [List.length_append, List.length_cons, List.length_nil] at *
              exact ⟨⟨by omega, hargs hs ha⟩, fun _ => by omega⟩
          | some row =>
            obtain ⟨pat, sub⟩ := row
            by_cases hl : CMDBUF_SIZE - st.cmdbuf.length ≤ strlen sub
            · simp [shell_cmd_step, h0, hsp, hs, ha, hf, hl]
            · simp only [shell_cmd_step, h0, hsp, hs, ha, hf, hl, beq_iff_eq, if_false, if_true,
                Bool.false_eq_true, decide_False, Bool.and_false]
              rw [take_strlen]
              simp only [List.length_append, List.length_cons, List.length_nil] at *
              exact ⟨⟨by unfold strlen at hl; omega, hargs hs ha⟩, hdrop hf⟩
      · cases hf : find_subst substs (c :: r) with
        | none =>
          by_cases hl : st.cmdbuf.length ≥ CMDBUF_SIZE
          · simp [shell_cmd_step, h0, hsp, hs, hf, hl]
          · simp only [shell_cmd_step, h0, hsp, hs, hf, hl, beq_iff_eq, if_false, if_true,
              Bool.false_eq_true, Bool.false_and]
            simp only [List.length_append, List.length_cons, List.length_nil] at *
            exact ⟨⟨by omega, hb2⟩, fun _ => by omega⟩
        | some row =>
          obtain ⟨pat, sub⟩ := row
          by_cases hl : CMDBUF_SIZE - st.cmdbuf.length ≤ strlen sub
          · simp [shell_cmd_step, h0, hsp, hs, hf, hl]
          · simp only [shell_cmd_step, h0, hsp, hs, hf, hl, beq_iff_eq, if_false, if_true,
              Bool.false_eq_true, Bool.false_and]
            rw [take_strlen]
            simp only [List.length_append, List.length_cons, List.length_nil] at *
            exact ⟨⟨by unfold strlen at hl; omega, hb2⟩, hdrop hf⟩

/-- The parsing loop: it fails with `ENOSPC` only, a finished run leaves at most 4096 bytes
in `cmdbuf` and at most 64 pointers in `args`, and with patterns of positive length it needs
at most one iteration for each character of the template and one more. -/
theorem loop_inv (substs : List Subst) (fuel : Nat) :
    ∀ (s : List Char) (st : BuildState),
      st.cmdbuf.length ≤ CMDBUF_SIZE ∧ st.args.length ≤ ARGS_SIZE →
      match shell_cmd_loop substs fuel s st with
      | some (.ok st') => st'.cmdbuf.length ≤ CMDBUF_SIZE ∧ st'.args.length ≤ ARGS_SIZE
      | some (.error e) => e = .ENOSPC
      | none => NonemptyPatterns substs → fuel ≤ s.length := by
  induction fuel with
  | zero => intro s st _; simp [shell_cmd_loop]
  | succ fuel ih =>
    intro s st hb
    have hstep := step_inv substs s st hb
    rw [loop_succ]
    cases h : shell_cmd_step substs s st with
    | stop st1 =>
      rw [h] at hstep
      simp only at hstep ⊢
      rw [hstep]; exact hb
    | fail e => rw [h] at hstep; exact hstep
    | next rest st1 =>
      rw [h] at hstep
      simp only at hstep ⊢
      have := ih rest st1 hstep.1
      cases hl : shell_cmd_loop substs fuel rest st1 with
      | none =>
        rw [hl] at this
        intro hne
        have h1 := this hne
        have h2 := hstep.2 hne
        simp only at h1
        omega
      | some res =>
        rw [hl] at this
        cases res with
        | ok st2 => exact this
        | error e => exact this

theorem iter_bounds (substs : List Subst) (n : Nat) :
    ∀ (s rest : List Char) (st st' : BuildState),
      st.cmdbuf.length ≤ CMDBUF_SIZE ∧ st.args.length ≤ ARGS_SIZE →
      shell_cmd_iter substs n s st = some (rest, st') →
      st'.cmdbuf.length ≤ CMDBUF_SIZE ∧ st'.args.length ≤ ARGS_SIZE := by
  induction n with
  | zero =>
    intro s rest st st' hb h
    simp only [shell_cmd_iter, Option.some.injEq, Prod.mk.injEq] at h
    rw [← h.2]; exact hb
  | succ n ih =>
    intro s rest st st' hb h
    have hstep := step_inv substs s st hb
    simp only [shell_cmd_iter] at h
    cases hs : shell_cmd_step substs s st with
    | stop st1 => rw [hs] at h; simp at h
    | fail e => rw [hs] at h; simp at h
    | next r st1 =>
      rw [hs] at h hstep
      exact ih r rest st1 st' hstep.1 h

/-! ## The limits in terms of the arguments: lemmas -/

theorem length_layout_append (l m : List (List Char)) :
    (layout (l ++ m)).length = (layout l).length + (layout m).length := by
  rw [layout_append, List.length_append]

theorem length_layout_cons (a : List Char) (l : List (List Char)) :
    (layout (a :: l)).length = a.length + 1 + (layout l).length := by
  simp [layout]; omega

theorem fits_pieces_some {substs : List Subst} {done : List (List Char)} {t s : List Char}
    (h : Fits (done ++ pieces substs (some t) s)) :
    done.length + 1 < ARGS_SIZE ∧ (layout done).length + t.length + 1 ≤ CMDBUF_SIZE := by
  obtain ⟨h1, h2⟩ := h
  simp only [pieces, List.length_append, List.length_cons, length_layout_append,
    length_layout_cons] at h1 h2
  constructor <;> omega

theorem fits_pieces_some_space {substs : List Subst} {done : List (List Char)} {t s : List Char}
    (h : Fits (done ++ pieces substs (some t) s)) :
    ¬ (layout done ++ t).length ≥ CMDBUF_SIZE := by
  have := (fits_pieces_some h).2
  simp only [List.length_append]
  omega

/-- The parsing loop does not fail when the expanded arguments fit. -/
theorem loop_ne_error_conc {substs : List Subst} (hws : NoSpacePatterns substs)
    (hne : NonemptyPatterns substs) (fuel : Nat) :
    ∀ (s : List Char) (done : List (List Char)) (cur : Option (List Char)) (e : Errno),
      (∀ c ∈ s, c ≠ NUL) → Fits (done ++ pieces substs cur s) →
      shell_cmd_loop substs fuel s (conc done cur) ≠ some (.error e) := by
  induction fuel with
  | zero => intro s done cur e _ _; simp [shell_cmd_loop]
  | succ fuel ih =>
    intro s done cur e hs hfit
    rw [loop_succ]
    cases s with
    | nil => rw [step_nil]; simp
    | cons c r =>
      have h0 : c ≠ NUL := hs c (List.mem_cons_self c r)
      have hr : ∀ d ∈ r, d ≠ NUL := fun d hd => hs d (List.mem_cons_of_mem c hd)
      by_cases hsp : isspace c = true
      · cases cur with
        | none =>
          rw [step_space_none substs h0 hsp]
          rw [pieces_none_space substs hsp] at hfit
          exact ih r done none e hr hfit
        | some t =>
          rw [step_space_some substs h0 hsp, if_neg (fits_pieces_some_space hfit)]
          rw [pieces_some_space substs hsp] at hfit
          exact ih r (done ++ [t]) none e hr (by simpa using hfit)
      · have hsp' : isspace c = false := by simpa using hsp
        have key : ∀ t : List Char, Fits (done ++ pieces substs (some t) (c :: r)) →
            (match shell_cmd_step substs (c :: r) (conc done (some t)) with
              | .stop st' => some (.ok st')
              | .fail e => some (.error e)
              | .next rest st' => shell_cmd_loop substs fuel rest st') ≠ some (.error e) := by
          intro t hfit
          cases hf : find_subst substs (c :: r) with
          | none =>
            rw [pieces_some_plain hws hsp' hf] at hfit
            have h1 := (fits_pieces_some hfit).2
            simp only [List.length_append, List.length_cons, List.length_nil] at h1
            rw [step_some_plain substs h0 hsp' hf, if_neg (by
              simp only [List.length_append]; omega)]
            exact ih r done (some (t ++ [c])) e hr hfit
          | some row =>
            obtain ⟨pat, sub⟩ := row
            have hpos : 0 < strlen pat :=
              List.length_pos.2 (hne (pat, sub) (find_subst_some hf).1)
            rw [pieces_some_subst hws hf hpos] at hfit
            have h1 := (fits_pieces_some hfit).2
            simp only [List.length_append] at h1
            rw [step_some_subst substs h0 hsp' hf, if_neg (by
              simp only [List.length_append, strlen]; omega)]
            exact ih _ done (some (t ++ cstr sub)) e (nul_free_drop hs _) hfit
        cases cur with
        | none =>
          rw [pieces_none_nonspace substs hsp'] at hfit
          have h1 := (fits_pieces_some hfit).1
          rw [step_nonspace_none substs h0 hsp', if_neg (by omega)]
          exact key [] hfit
        | some t => exact key t hfit

/-! ## The template is read as a C string: lemmas -/

theorem prefix_cstr_iff {p : List Char} (hp : ∀ c ∈ p, c ≠ NUL) (s : List Char) :
    p <+: cstr s ↔ p <+: s := by
  constructor
  · intro h
    exact h.trans (cstr_isPrefix s)
  · rintro ⟨t, rfl⟩
    rw [cstr_append_of_nul_free hp]
    exact List.prefix_append _ _

theorem find_subst_cstr (substs : List Subst) (s : List Char) :
    find_subst substs (cstr s) = find_subst substs s :=
  find_subst_congr (fun _ _ => prefix_cstr_iff (fun _ h => ne_nul_of_mem_cstr h) s)

theorem cstr_drop_of_find {substs : List Subst} {s : List Char} {pat sub : List Char}
    (hf : find_subst substs s = some (pat, sub)) :
    (cstr s).drop (strlen pat) = cstr (s.drop (strlen pat)) := by
  obtain ⟨-, t, ht⟩ := find_subst_some hf
  simp only at ht
  subst ht
  rw [cstr_append_of_nul_free (fun _ h => ne_nul_of_mem_cstr h)]
  simp [strlen]

theorem step_cstr (substs : List Subst) (s : List Char) (st : BuildState) :
    shell_cmd_step substs (cstr s) st =
      match shell_cmd_step substs s st with
      | .next rest st' => .next (cstr rest) st'
      | r => r := by
  cases s with
  | nil => simp [cstr, shell_cmd_step]
  | cons c r =>
    by_cases h0 : c = NUL
    · subst h0
      simp [cstr_cons_nul, shell_cmd_step]
    · have hfind := find_subst_cstr substs (c :: r)
      rw [cstr_cons_ne h0] at hfind
      cases hf : find_subst substs (c :: r) with
      | none =>
        rw [hf] at hfind
        rw [cstr_cons_ne h0]
        simp only [shell_cmd_step, hfind, hf]
        split_ifs <;> rfl
      | some row =>
        obtain ⟨pat, sub⟩ := row
        rw [hf] at hfind
        have hd := cstr_drop_of_find hf
        rw [cstr_cons_ne h0] at hd
        rw [cstr_cons_ne h0]
        simp only [shell_cmd_step, hfind, hf, hd]
        split_ifs <;> rfl

theorem loop_cstr (substs : List Subst) (fuel : Nat) :
    ∀ (s : List Char) (st : BuildState),
      shell_cmd_loop substs fuel (cstr s) st = shell_cmd_loop substs fuel s st := by
  induction fuel with
  | zero => intro s st; rfl
  | succ fuel ih =>
    intro s st
    rw [loop_succ, loop_succ, step_cstr]
    cases shell_cmd_step substs s st with
    | stop st1 => rfl
    | fail e => rfl
    | next rest st1 => exact ih rest st1

/-! ## The end of `shell_cmd_build`: lemmas -/

theorem finish_conc_of_fits {done : List (List Char)} {cur : Option (List Char)}
    (h : Fits (done ++ cur.toList)) :
    shell_cmd_finish (conc done cur) =
      .ok { args := offsets 0 (done ++ cur.toList), cmdbuf := layout (done ++ cur.toList) } := by
  obtain ⟨h1, h2⟩ := h
  cases cur with
  | none =>
    simp only [Option.toList, List.append_nil] at h1 h2 ⊢
    simp [shell_cmd_finish, conc, length_offsets, Nat.not_le.2 h1]
  | some t =>
    simp only [Option.toList, List.length_append, List.length_cons, List.length_nil,
      layout_snoc] at h1 h2 ⊢
    have h3 : ¬ ARGS_SIZE ≤ (offsets 0 done).length + 1 := by rw [length_offsets]; omega
    have h4 : ¬ CMDBUF_SIZE ≤ (layout done).length + t.length := by omega
    simp [shell_cmd_finish, conc, offsets_snoc, layout_snoc, h3, h4]

theorem finish_conc_of_not_fits {done : List (List Char)} {cur : Option (List Char)}
    (h : ¬ Fits (done ++ cur.toList)) (hb : (conc done cur).cmdbuf.length ≤ CMDBUF_SIZE) :
    shell_cmd_finish (conc done cur) = .error .ENOSPC := by
  cases cur with
  | none =>
    simp only [Option.toList, List.append_nil, Fits, not_and_or, not_lt, not_le] at h
    simp only [conc] at hb
    have h1 : ARGS_SIZE ≤ done.length := by omega
    simp [shell_cmd_finish, conc, length_offsets, h1]
  | some t =>
    simp only [Option.toList, Fits, List.length_append, List.length_cons, List.length_nil,
      layout_snoc, not_and_or, not_lt, not_le] at h
    by_cases h4 : CMDBUF_SIZE ≤ (layout done).length + t.length
    · simp [shell_cmd_finish, conc, h4]
    · have h3 : ARGS_SIZE ≤ (offsets 0 done).length + 1 := by rw [length_offsets]; omega
      simp [shell_cmd_finish, conc, h3, h4]

theorem mem_tokens_of_mem_tokens_tokenTail {r t : List Char} (h : t ∈ tokens (tokenTail r)) :
    t ∈ tokens r := by
  cases r with
  | nil => exact h
  | cons d r =>
    by_cases hsp : isspace d = true
    · rwa [tokenTail_cons_space hsp] at h
    · have hsp' : isspace d = false := by simpa using hsp
      rw [tokenTail_cons_nonspace hsp'] at h
      rw [tokens_cons_nonspace hsp']
      exact List.mem_cons_of_mem _ h

theorem mem_of_mem_tokens {s t : List Char} (h : t ∈ tokens s) : ∀ c ∈ t, c ∈ s := by
  induction s generalizing t with
  | nil => simp [tokens] at h
  | cons c r ih =>
    by_cases hsp : isspace c = true
    · rw [tokens_cons_space hsp] at h
      exact fun d hd => List.mem_cons_of_mem c (ih h d hd)
    · have hsp' : isspace c = false := by simpa using hsp
      rw [tokens_cons_nonspace hsp'] at h
      rcases List.mem_cons.1 h with rfl | h
      · intro d hd
        rcases List.mem_cons.1 hd with rfl | hd
        · exact List.mem_cons_self _ _
        · exact List.mem_cons_of_mem c ((tokenHead_isPrefix r).subset hd)
      · exact fun d hd =>
          List.mem_cons_of_mem c (ih (mem_tokens_of_mem_tokens_tokenTail h) d hd)

theorem ne_nul_of_mem_expandGo {substs : List Subst} {s : List Char} (hs : ∀ c ∈ s, c ≠ NUL) :
    ∀ k, ∀ c ∈ expandGo substs k s, c ≠ NUL := by
  induction s with
  | nil => intro k c h; simp [expandGo] at h
  | cons d r ih =>
    have hr : ∀ c ∈ r, c ≠ NUL := fun c hc => hs c (List.mem_cons_of_mem d hc)
    intro k
    cases k with
    | succ k => simpa [expandGo] using ih hr k
    | zero =>
      intro c h
      simp only [expandGo] at h
      cases hf : find_subst substs (d :: r) with
      | none =>
        rw [hf] at h
        rcases List.mem_cons.1 h with rfl | h
        · exact hs c (List.mem_cons_self c r)
        · exact ih hr 0 c h
      | some row =>
        rw [hf] at h
        rcases List.mem_append.1 h with h | h
        · exact ne_nul_of_mem_cstr h
        · exact ih hr _ c h

theorem ne_nul_of_mem_expand_tokens {substs : List Subst} {s : List Char}
    (hs : ∀ c ∈ s, c ≠ NUL) :
    ∀ a ∈ (tokens s).map (expand substs), ∀ c ∈ a, c ≠ NUL := by
  intro a ha
  obtain ⟨t, ht, rfl⟩ := List.mem_map.1 ha
  exact ne_nul_of_mem_expandGo (fun c hc => hs c (mem_of_mem_tokens ht c hc)) 0

/-! ## `shell_cmd_build`: what it returns -/

theorem conc_nil : conc [] none = { args := [], cmdbuf := [], is_space := true } := rfl

/-- When `shell_cmd_build` succeeds, with a table whose patterns contain no whitespace, the
arrays it has filled hold the expansions of the tokens of the template, which fit. -/
theorem build_ok {substs : List Subst} (hws : NoSpacePatterns substs) {fuel : Nat}
    {s : List Char} {b : Built} (h : shell_cmd_build substs fuel s = some (.ok b)) :
    b = { args := offsets 0 ((tokens (cstr s)).map (expand substs)),
          cmdbuf := layout ((tokens (cstr s)).map (expand substs)) } ∧
      Fits ((tokens (cstr s)).map (expand substs)) := by
  unfold shell_cmd_build at h
  rw [← loop_cstr, ← conc_nil] at h
  have hinv := loop_inv substs fuel (cstr s) (conc [] none) (by simp [conc, layout, offsets])
  cases hl : shell_cmd_loop substs fuel (cstr s) (conc [] none) with
  | none => rw [hl] at h; simp at h
  | some res =>
    rw [hl] at h hinv
    cases res with
    | error e => simp at h
    | ok st =>
      simp only [Option.some.injEq] at h
      obtain ⟨done, cur, rfl, hL⟩ :=
        loop_ok_conc hws fuel (cstr s) [] none st (fun c hc => ne_nul_of_mem_cstr hc) hl
      simp only [List.nil_append, pieces] at hL
      rw [← hL]
      by_cases hfit : Fits (done ++ cur.toList)
      · rw [finish_conc_of_fits hfit] at h
        simp only [Except.ok.injEq] at h
        exact ⟨h.symm, hfit⟩
      · rw [finish_conc_of_not_fits hfit hinv.1] at h
        simp at h

/-- The argument vector of a successful `shell_cmd_build`, for a table whose patterns contain
no whitespace: the expansions of the tokens of the template. -/
theorem argv_build {substs : List Subst} (hws : NoSpacePatterns substs) {fuel : Nat}
    {s : List Char} {b : Built} (h : shell_cmd_build substs fuel s = some (.ok b)) :
    argv b = (tokens (cstr s)).map (expand substs) := by
  rw [(build_ok hws h).1]
  exact argv_layout _ (ne_nul_of_mem_expand_tokens (fun c hc => ne_nul_of_mem_cstr hc))

/-- With patterns that are not empty, `shell_cmd_build` returns after at most one iteration
for each character of the template and one more. -/
theorem build_ne_none {substs : List Subst} (hne : NonemptyPatterns substs) {fuel : Nat}
    {s : List Char} (hfuel : (cstr s).length < fuel) : shell_cmd_build substs fuel s ≠ none := by
  unfold shell_cmd_build
  rw [← loop_cstr, ← conc_nil]
  have hinv := loop_inv substs fuel (cstr s) (conc [] none) (by simp [conc, layout, offsets])
  cases hl : shell_cmd_loop substs fuel (cstr s) (conc [] none) with
  | none =>
    rw [hl] at hinv
    have := hinv hne
    omega
  | some res => cases res <;> simp

theorem build_error_enospc {substs : List Subst} {fuel : Nat} {s : List Char} {e : Errno}
    (h : shell_cmd_build substs fuel s = some (.error e)) : e = .ENOSPC := by
  unfold shell_cmd_build at h
  rw [← conc_nil] at h
  have hinv := loop_inv substs fuel s (conc [] none) (by simp [conc, layout, offsets])
  cases hl : shell_cmd_loop substs fuel s (conc [] none) with
  | none => rw [hl] at h; simp at h
  | some res =>
    rw [hl] at h hinv
    cases res with
    | error e' =>
      simp only [Option.some.injEq, Except.error.injEq] at h
      exact h ▸ hinv
    | ok st =>
      simp only [Option.some.injEq] at h
      unfold shell_cmd_finish at h
      split_ifs at h <;> simp_all

/-- With patterns that are not empty and contain no whitespace, `shell_cmd_build` succeeds
when the expansions of the tokens fit the arrays. -/
theorem build_of_fits {substs : List Subst} (hws : NoSpacePatterns substs)
    (hne : NonemptyPatterns substs) {fuel : Nat} {s : List Char}
    (hfuel : (cstr s).length < fuel)
    (hfit : Fits ((tokens (cstr s)).map (expand substs))) :
    shell_cmd_build substs fuel s =
      some (.ok { args := offsets 0 ((tokens (cstr s)).map (expand substs)),
                  cmdbuf := layout ((tokens (cstr s)).map (expand substs)) }) := by
  have hnn := build_ne_none hne hfuel
  cases hb : shell_cmd_build substs fuel s with
  | none => exact absurd hb hnn
  | some res =>
    cases res with
    | ok b => rw [(build_ok hws hb).1]
    | error e =>
      exfalso
      unfold shell_cmd_build at hb
      rw [← loop_cstr, ← conc_nil] at hb
      have hinv := loop_inv substs fuel (cstr s) (conc [] none) (by simp [conc, layout, offsets])
      cases hl : shell_cmd_loop substs fuel (cstr s) (conc [] none) with
      | none => rw [hl] at hb; simp at hb
      | some res =>
        rw [hl] at hb hinv
        cases res with
        | error e' =>
          exact loop_ne_error_conc hws hne fuel (cstr s) [] none e'
            (fun c hc => ne_nul_of_mem_cstr hc) (by simpa [pieces] using hfit) hl
        | ok st =>
          obtain ⟨done, cur, rfl, hL⟩ :=
            loop_ok_conc hws fuel (cstr s) [] none st (fun c hc => ne_nul_of_mem_cstr hc) hl
          simp only [List.nil_append, pieces] at hL
          rw [← hL] at hfit
          simp only [Option.some.injEq] at hb
          rw [finish_conc_of_fits hfit] at hb
          simp at hb

/-- With patterns that are not empty and contain no whitespace, `shell_cmd_build` fails with
`ENOSPC` when the expansions of the tokens do not fit the arrays. -/
theorem build_of_not_fits {substs : List Subst} (hws : NoSpacePatterns substs)
    (hne : NonemptyPatterns substs) {fuel : Nat} {s : List Char}
    (hfuel : (cstr s).length < fuel)
    (hfit : ¬ Fits ((tokens (cstr s)).map (expand substs))) :
    shell_cmd_build substs fuel s = some (.error .ENOSPC) := by
  have hnn := build_ne_none hne hfuel
  cases hb : shell_cmd_build substs fuel s with
  | none => exact absurd hb hnn
  | some res =>
    cases res with
    | ok b => exact absurd (build_ok hws hb).2 hfit
    | error e => rw [build_error_enospc hb]

/-! ## Integers in memory and decimal digits: lemmas -/

theorem length_store32 (e : Endian) (x : Nat) : (store32 e x).length = 4 := by
  cases e <;> simp [store32, be32]

theorem bswap32_bytes (a b c d : Nat) (ha : a < 256) (hb : b < 256) (hc : c < 256)
    (hd : d < 256) :
    (a * 2 ^ 24 + b * 2 ^ 16 + c * 2 ^ 8 + d) / 2 ^ 24 % 256 = a ∧
    (a * 2 ^ 24 + b * 2 ^ 16 + c * 2 ^ 8 + d) / 2 ^ 16 % 256 = b ∧
    (a * 2 ^ 24 + b * 2 ^ 16 + c * 2 ^ 8 + d) / 2 ^ 8 % 256 = c ∧
    (a * 2 ^ 24 + b * 2 ^ 16 + c * 2 ^ 8 + d) % 256 = d := by
  refine ⟨?_, ?_, ?_, ?_⟩ <;> omega

/-- The bytes of `htonl(x)` in memory are the big-endian encoding of `x`, whatever the byte
order of the host. -/
theorem store32_htonl (e : Endian) {x : Nat} (hx : x < 2 ^ 32) :
    store32 e (htonl e x) = be32 x := by
  cases e with
  | big => simp only [store32, htonl, Nat.mod_eq_of_lt hx]
  | little =>
    obtain ⟨h1, h2, h3, h4⟩ := bswap32_bytes (x % 256) (x / 2 ^ 8 % 256) (x / 2 ^ 16 % 256)
      (x / 2 ^ 24 % 256) (Nat.mod_lt _ (by norm_num)) (Nat.mod_lt _ (by norm_num))
      (Nat.mod_lt _ (by norm_num)) (Nat.mod_lt _ (by norm_num))
    simp only [store32, htonl, be32, bswap32, List.reverse_cons, List.reverse_nil,
      List.nil_append, List.cons_append, List.cons.injEq, and_true]
    refine ⟨?_, ?_, ?_, ?_⟩ <;> apply Fin.ext <;> simp only [Fin.ofNat, Fin.val_mk]
    · rw [h4]
    · rw [h3]
    · rw [h2]
    · rw [h1]

theorem nibble_eq (b : Byte) : b.val >>> 4 = b.val / 16 := by
  rw [Nat.shiftRight_eq_div_pow]


/-! ## `tun_write` and `tun_read`: lemmas -/

theorem tun_write_short (e : Endian) (af_inet6 : Nat) (writev : List Byte → Int)
    {data : List Byte} (h : data.length < 20) :
    tun_write e af_inet6 writev data = { ret := 0, errno := none, datagram := none } := by
  simp [tun_write, h]

theorem tun_write_family (e : Endian) (af_inet6 : Nat) (writev : List Byte → Int)
    {data : List Byte} (h : 20 ≤ data.length) {family : Nat}
    (hf : (match (data.headD 0).val >>> 4 with
      | 4 => some (htonl e AF_INET)
      | 6 => some (htonl e af_inet6)
      | _ => none) = some family) :
    tun_write e af_inet6 writev data =
      { ret := if writev (store32 e family ++ data) ≤ 0 then writev (store32 e family ++ data)
          else if writev (store32 e family ++ data) ≤ 4 then 0
          else writev (store32 e family ++ data) - 4,
        errno := none,
        datagram := some (store32 e family ++ data) } := by
  have h' : ¬ data.length < 20 := by omega
  simp only [tun_write, h', if_false, hf, FAMILY_SIZE, Nat.cast_ofNat]
  split_ifs <;> rfl

theorem tun_write_inet (e : Endian) (af_inet6 : Nat) (writev : List Byte → Int)
    {data : List Byte} (h : 20 ≤ data.length) (h4 : (data.headD 0).val / 16 = 4) :
    tun_write e af_inet6 writev data =
      { ret := if writev (be32 AF_INET ++ data) ≤ 0 then writev (be32 AF_INET ++ data)
          else if writev (be32 AF_INET ++ data) ≤ 4 then 0
          else writev (be32 AF_INET ++ data) - 4,
        errno := none,
        datagram := some (be32 AF_INET ++ data) } := by
  rw [← store32_htonl e (show AF_INET < 2 ^ 32 by decide)]
  exact tun_write_family e af_inet6 writev h (by rw [nibble_eq, h4])

theorem tun_write_inet6 (e : Endian) {af_inet6 : Nat} (haf : af_inet6 < 2 ^ 32)
    (writev : List Byte → Int) {data : List Byte} (h : 20 ≤ data.length)
    (h6 : (data.headD 0).val / 16 = 6) :
    tun_write e af_inet6 writev data =
      { ret := if writev (be32 af_inet6 ++ data) ≤ 0 then writev (be32 af_inet6 ++ data)
          else if writev (be32 af_inet6 ++ data) ≤ 4 then 0
          else writev (be32 af_inet6 ++ data) - 4,
        errno := none,
        datagram := some (be32 af_inet6 ++ data) } := by
  rw [← store32_htonl e haf]
  exact tun_write_family e af_inet6 writev h (by rw [nibble_eq, h6])

theorem tun_write_einval (e : Endian) (af_inet6 : Nat) (writev : List Byte → Int)
    {data : List Byte} (h : 20 ≤ data.length) (h4 : (data.headD 0).val / 16 ≠ 4)
    (h6 : (data.headD 0).val / 16 ≠ 6) :
    tun_write e af_inet6 writev data =
      { ret := -1, errno := some .EINVAL, datagram := none } := by
  have h' : ¬ data.length < 20 := by omega
  rw [← nibble_eq] at h4 h6
  have : (match (data.headD 0).val >>> 4 with
      | 4 => some (htonl e AF_INET)
      | 6 => some (htonl e af_inet6)
      | _ => none) = none := by
    split
    · exact absurd ‹_› h4
    · exact absurd ‹_› h6
    · rfl
  simp only [tun_write, h', if_false, this]

theorem tun_read_device {hdr p buf : List Byte} (hh : hdr.length = 4) (hp : 0 < p.length)
    (hb : p.length ≤ buf.length) :
    tun_read (deviceReadv (hdr ++ p)) buf =
      { ret := p.length, data := p ++ buf.drop p.length } := by
  have h1 : (hdr ++ p).take 4 = hdr := by rw [← hh, List.take_left]
  have h2 : (hdr ++ p).drop 4 = p := by rw [← hh, List.drop_left]
  have h3 : p.take buf.length = p := List.take_of_length_le hb
  simp only [tun_read, deviceReadv, FAMILY_SIZE, h1, h2, h3, hh]
  have h4 : ¬ ((4 + p.length : Nat) : Int) ≤ 0 := by omega
  have h5 : ¬ ((4 + p.length : Nat) : Int) ≤ ((4 : Nat) : Int) := by omega
  rw [if_neg h4, if_neg h5]
  congr 1
  omega

/-! ## The claims on the tunnel framing -/

/-- C6: on the BSD branch, for every packet of at least 20 bytes, `tun_write` hands `writev`
four bytes, chosen from the high nibble of the first byte of the packet, followed by the
packet unchanged: the big-endian encoding of `AF_INET` when the nibble is 4 and of
`AF_INET6` when it is 6; for any other nibble it calls no `writev` and fails with `-1` and
`errno` `EINVAL`. -/
theorem tun_write_header (e : Endian) (af_inet6 : Nat) (haf : af_inet6 < 2 ^ 32)
    (writev : List Byte → Int) (data : List Byte) (h : 20 ≤ data.length) :
    ((data.headD 0).val / 16 = 4 →
      (tun_write e af_inet6 writev data).datagram = some (be32 AF_INET ++ data)) ∧
    ((data.headD 0).val / 16 = 6 →
      (tun_write e af_inet6 writev data).datagram = some (be32 af_inet6 ++ data)) ∧
    ((data.headD 0).val / 16 ≠ 4 → (data.headD 0).val / 16 ≠ 6 →
      tun_write e af_inet6 writev data =
        { ret := -1, errno := some .EINVAL, datagram := none }) ∧
    (be32 AF_INET).length = 4 ∧ (be32 af_inet6).length = 4 := by
  refine ⟨fun h4 => ?_, fun h6 => ?_, fun h4 h6 => ?_, rfl, rfl⟩
  · rw [tun_write_inet e af_inet6 writev h h4]
  · rw [tun_write_inet6 e haf writev h h6]
  · exact tun_write_einval e af_inet6 writev h h4 h6

theorem tun_write_header_witness :
    (tun_write .little 30 deviceWritev (List.replicate 20 (0x45 : Byte))).datagram =
        some (be32 AF_INET ++ List.replicate 20 (0x45 : Byte)) ∧
      (tun_write .big 30 deviceWritev (List.replicate 20 (0x60 : Byte))).datagram =
        some (be32 30 ++ List.replicate 20 (0x60 : Byte)) :=
  ⟨(tun_write_header .little 30 (by decide) deviceWritev _ (by decide)).1 (by decide),
   (tun_write_header .big 30 (by decide) deviceWritev _ (by decide)).2.1 (by decide)⟩

/-- C8: on the BSD branch, `tun_write` of a buffer of fewer than 20 bytes calls no `writev`,
sets no error and returns 0; and the counts `tun_write` and `tun_read` return leave out the
4-byte header: when `writev` or `readv` returns `r`, the result is `r - 4` if `r > 4` and `0`
if `0 < r ≤ 4`, while `r ≤ 0` makes `tun_read` return `-1` and `tun_write` return `r`. -/
theorem tun_byte_counts (e : Endian) (af_inet6 : Nat) (writev : List Byte → Int)
    (data : List Byte) (readv : Nat → Nat → Readv) (buf : List Byte) :
    (data.length < 20 →
      tun_write e af_inet6 writev data = { ret := 0, errno := none, datagram := none }) ∧
    (∀ iov, (tun_write e af_inet6 writev data).datagram = some iov →
      (tun_write e af_inet6 writev data).ret =
        if writev iov ≤ 0 then writev iov else if writev iov ≤ 4 then 0 else writev iov - 4) ∧
    (tun_read readv buf).ret =
      if (readv 4 buf.length).ret ≤ 0 then -1
      else if (readv 4 buf.length).ret ≤ 4 then 0 else (readv 4 buf.length).ret - 4 := by
  refine ⟨fun h => tun_write_short e af_inet6 writev h, fun iov hiov => ?_, ?_⟩
  · by_cases h : data.length < 20
    · rw [tun_write_short e af_inet6 writev h] at hiov
      simp at hiov
    · cases hf : (match (data.headD 0).val >>> 4 with
        | 4 => some (htonl e AF_INET)
        | 6 => some (htonl e af_inet6)
        | _ => none) with
      | none =>
        simp only [tun_write, h, if_false, hf] at hiov
        simp at hiov
      | some family =>
        rw [tun_write_family e af_inet6 writev (by omega) hf] at hiov ⊢
        simp only [Option.some.injEq] at hiov
        rw [hiov]
  · simp only [tun_read, FAMILY_SIZE, Nat.cast_ofNat]
    split_ifs <;> rfl

theorem tun_byte_counts_witness :
    tun_write .little 30 deviceWritev (List.replicate 19 (0x45 : Byte)) =
      { ret := 0, errno := none, datagram := none } :=
  (tun_byte_counts .little 30 deviceWritev (List.replicate 19 (0x45 : Byte))
    (deviceReadv []) []).1 (by decide)

/-- C5 fails as stated: a packet of 20 bytes whose first byte has the high nibble 0 is not
handed to the device; `tun_write` returns `-1` with `errno` `EINVAL`. -/
theorem tun_round_trip_counterexample :
    tun_write .little 30 deviceWritev (List.replicate 20 (0 : Byte)) =
      { ret := -1, errno := some .EINVAL, datagram := none } := by
  decide

/-- C5 (amended): for every packet `p` of at least 20 bytes whose first byte has the high
nibble 4 or 6, on a device that takes the whole datagram, `tun_write` hands the device one
datagram and returns the length of `p`, and `tun_read` of that datagram into a buffer of at
least that length returns the length of `p` and leaves `p` at the start of the buffer,
nothing before it and no byte of it changed. -/
theorem tun_round_trip (e : Endian) (af_inet6 : Nat) (p buf : List Byte)
    (hlen : 20 ≤ p.length)
    (hnib : (p.headD 0).val / 16 = 4 ∨ (p.headD 0).val / 16 = 6)
    (hbuf : p.length ≤ buf.length) :
    (tun_write e af_inet6 deviceWritev p).ret = p.length ∧
    (tun_write e af_inet6 deviceWritev p).errno = none ∧
    ∃ d, (tun_write e af_inet6 deviceWritev p).datagram = some d ∧
      tun_read (deviceReadv d) buf = { ret := p.length, data := p ++ buf.drop p.length } := by
  have hf : ∃ family, (match (p.headD 0).val >>> 4 with
      | 4 => some (htonl e AF_INET)
      | 6 => some (htonl e af_inet6)
      | _ => none) = some family := by
    rw [nibble_eq]
    rcases hnib with h | h <;> rw [h] <;> exact ⟨_, rfl⟩
  obtain ⟨family, hf⟩ := hf
  rw [tun_write_family e af_inet6 deviceWritev hlen hf]
  have hl : deviceWritev (store32 e family ++ p) = ((4 + p.length : Nat) : Int) := by
    simp [deviceWritev, length_store32]
  refine ⟨?_, rfl, _, rfl, tun_read_device (length_store32 e family) (by omega) hbuf⟩
  simp only [hl]
  rw [if_neg (by omega), if_neg (by omega)]
  omega

theorem tun_round_trip_witness :
    (tun_write .little 30 deviceWritev (List.replicate 20 (0x45 : Byte))).ret = 20 ∧
    ∃ d, (tun_write .little 30 deviceWritev (List.replicate 20 (0x45 : Byte))).datagram = some d ∧
      tun_read (deviceReadv d) (List.replicate 32 (0 : Byte)) =
        { ret := 20, data := List.replicate 20 (0x45 : Byte) ++ List.replicate 12 (0 : Byte) } := by
  have h := tun_round_trip .little 30 (List.replicate 20 (0x45 : Byte))
    (List.replicate 32 (0 : Byte)) (by decide) (by decide) (by decide)
  exact ⟨h.1, h.2.2⟩

/-! ## The claims on the command templates and on the exit status -/

theorem firewall_rules_cmds_wellFormed (platform : Platform) (is_server : Int) :
    cmdsWellFormed (firewall_rules_cmds platform is_server).set_cmds = true ∧
    cmdsWellFormed (firewall_rules_cmds platform is_server).unset_cmds = true := by
  by_cases h : is_server = 0
  · subst h
    cases platform <;> decide
  · have h' : is_server ≠ 0 := h
    unfold firewall_rules_cmds
    rw [if_pos h']
    cases platform <;> decide

theorem cmdsWellFormed_some {arr : List (Option String)}
    (h : cmdsWellFormed (some arr) = true) :
    (arr.getLast? = some none ∧ ∀ x ∈ arr.dropLast, x ≠ none) ∧
      ∀ t, some t ∈ arr → ∀ v ∈ templateVars t.toList, String.mk v ∈ substVars := by
  simp only [cmdsWellFormed, nullTerminated, Bool.and_eq_true, beq_iff_eq, List.all_eq_true] at h
  obtain ⟨⟨h1, h2⟩, h3⟩ := h
  refine ⟨⟨h1, fun x hx hn => ?_⟩, fun t ht v hv => ?_⟩
  · have := h2 x hx
    rw [hn] at this
    simp at this
  · have := h3 (some t) ht
    simp only [List.all_eq_true] at this
    have h4 := this v hv
    exact List.elem_iff.1 h4

/-- C4: for both roles and on every platform branch, each list `firewall_rules_cmds` returns
is absent (`NULL`) or ends with `NULL` and has no `NULL` before its end, and every variable
(a `$` followed by a name) that occurs in a template of the list is one of the eight
variables `$IF_NAME`, `$LOCAL_TUN_IP`, `$REMOTE_TUN_IP`, `$LOCAL_TUN_IP6`, `$REMOTE_TUN_IP6`,
`$EXT_IF_NAME`, `$EXT_IP`, `$EXT_GW_IP`. -/
theorem firewall_rules_cmds_vars (platform : Platform) (is_server : Int) :
    ∀ cmds ∈ [(firewall_rules_cmds platform is_server).set_cmds,
        (firewall_rules_cmds platform is_server).unset_cmds],
      cmds = none ∨ ∃ arr, cmds = some arr ∧
        (arr.getLast? = some none ∧ ∀ x ∈ arr.dropLast, x ≠ none) ∧
        ∀ t, some t ∈ arr → ∀ v ∈ templateVars t.toList, String.mk v ∈
          ["$IF_NAME", "$LOCAL_TUN_IP", "$REMOTE_TUN_IP", "$LOCAL_TUN_IP6", "$REMOTE_TUN_IP6",
            "$EXT_IF_NAME", "$EXT_IP", "$EXT_GW_IP"] := by
  have key : ∀ cmds, cmdsWellFormed cmds = true →
      cmds = none ∨ ∃ arr, cmds = some arr ∧
        (arr.getLast? = some none ∧ ∀ x ∈ arr.dropLast, x ≠ none) ∧
        ∀ t, some t ∈ arr → ∀ v ∈ templateVars t.toList, String.mk v ∈ substVars := by
    intro cmds h
    cases cmds with
    | none => exact Or.inl rfl
    | some arr => exact Or.inr ⟨arr, rfl, cmdsWellFormed_some h⟩
  obtain ⟨h1, h2⟩ := firewall_rules_cmds_wellFormed platform is_server
  intro cmds hc
  simp only [List.mem_cons, List.mem_singleton, List.not_mem_nil, or_false] at hc
  rcases hc with rfl | rfl
  · exact key _ h1
  · exact key _ h2

theorem firewall_rules_cmds_vars_witness :
    (firewall_rules_cmds .linux 1).set_cmds = none ∨
      ∃ arr, (firewall_rules_cmds .linux 1).set_cmds = some arr ∧
        (arr.getLast? = some none ∧ ∀ x ∈ arr.dropLast, x ≠ none) ∧
        ∀ t, some t ∈ arr → ∀ v ∈ templateVars t.toList, String.mk v ∈
          ["$IF_NAME", "$LOCAL_TUN_IP", "$REMOTE_TUN_IP", "$LOCAL_TUN_IP6", "$REMOTE_TUN_IP6",
            "$EXT_IF_NAME", "$EXT_IP", "$EXT_GW_IP"] :=
  firewall_rules_cmds_vars .linux 1 _ (List.mem_cons_self _ _)

/-- C3 fails as stated: a command that exits with status 1 (also a child in which `execvp`
fails) makes `shell_cmd` return 0. -/
theorem shell_cmd_status_counterexample :
    shell_cmd { vfork := .ok 7, waitpid := .ok (.exited 1), child_errno := .ENOSPC } [] 6
        "false".toList =
      some { ret := 0, errno := .ENOSPC, execvp := some ["false".toList] } := by
  decide

/-- Once the arrays are built or a limit is hit, `shell_cmd` returns: the result for each
outcome of `vfork` and `waitpid`. -/
theorem shell_cmd_of_build (env : ProcEnv) {substs : List Subst} {fuel : Nat}
    {args_str : List Char} {res : Except Errno Built}
    (hb : shell_cmd_build substs fuel args_str = some res) :
    ∃ r, shell_cmd env substs fuel args_str = some r ∧
      (r.ret = 0 ∨ r.ret = -1) ∧
      (r.ret = 0 ↔ ∃ b pid status, res = .ok b ∧ env.vfork = .ok pid ∧
        env.waitpid = .ok (.exited status)) := by
  unfold shell_cmd
  rw [hb]
  cases res with
  | error e => exact ⟨_, rfl, Or.inr rfl, by simp⟩
  | ok b =>
    cases hv : env.vfork with
    | error e => exact ⟨_, rfl, Or.inr rfl, by simp⟩
    | ok pid =>
      cases hw : env.waitpid with
      | error e => exact ⟨_, rfl, Or.inr rfl, by simp⟩
      | ok status =>
        cases status with
        | exited code => exact ⟨_, rfl, Or.inl rfl, by simp [WIFEXITED]⟩
        | signaled sig => exact ⟨_, rfl, Or.inr rfl, by simp [WIFEXITED]⟩

/-- C3 (amended): with the outcomes of `vfork` and `waitpid` as inputs, `shell_cmd` returns,
for a table without an empty pattern after at most one iteration for each character of the
template and one more, and in any case once its parsing loop has ended; the value returned
is 0 or `-1`, and it is 0 if and only if the argument vector was built, the child was
created, was waited for and exited normally, whatever its exit status; so `shell_cmd`
returns `-1` when the command is ended by a signal, when `vfork` or `waitpid` fails, and when
a size limit is hit. -/
theorem shell_cmd_status (env : ProcEnv) (substs : List Subst) (fuel : Nat)
    (args_str : List Char) :
    (NonemptyPatterns substs → (cstr args_str).length < fuel →
      ∃ r, shell_cmd env substs fuel args_str = some r) ∧
    (∀ res, shell_cmd_build substs fuel args_str = some res →
      ∃ r, shell_cmd env substs fuel args_str = some r ∧
        (r.ret = 0 ∨ r.ret = -1) ∧
        (r.ret = 0 ↔ ∃ b pid status, res = .ok b ∧ env.vfork = .ok pid ∧
          env.waitpid = .ok (.exited status)) ∧
        (∀ sig, env.waitpid = .ok (.signaled sig) → r.ret = -1) ∧
        (∀ e, env.vfork = .error e → r.ret = -1) ∧
        (∀ e, env.waitpid = .error e → r.ret = -1) ∧
        (∀ e, res = .error e → r.ret = -1)) := by
  have key : ∀ res, shell_cmd_build substs fuel args_str = some res →
      ∃ r, shell_cmd env substs fuel args_str = some r ∧
        (r.ret = 0 ∨ r.ret = -1) ∧
        (r.ret = 0 ↔ ∃ b pid status, res = .ok b ∧ env.vfork = .ok pid ∧
          env.waitpid = .ok (.exited status)) ∧
        (∀ sig, env.waitpid = .ok (.signaled sig) → r.ret = -1) ∧
        (∀ e, env.vfork = .error e → r.ret = -1) ∧
        (∀ e, env.waitpid = .error e → r.ret = -1) ∧
        (∀ e, res = .error e → r.ret = -1) := by
    intro res hres
    obtain ⟨r, hr, h01, hiff⟩ := shell_cmd_of_build env hres
    have hneg : ¬ (∃ b pid status, res = .ok b ∧ env.vfork = .ok pid ∧
        env.waitpid = .ok (.exited status)) → r.ret = -1 := by
      intro hn
      rcases h01 with h0 | h1
      · exact absurd (hiff.1 h0) hn
      · exact h1
    refine ⟨r, hr, h01, hiff, fun sig hs => hneg ?_, fun e he => hneg ?_,
      fun e he => hneg ?_, fun e he => hneg ?_⟩
    · rintro ⟨b, pid, status, -, -, hw⟩
      rw [hs] at hw
      simp at hw
    · rintro ⟨b, pid, status, -, hv, -⟩
      rw [he] at hv
      simp at hv
    · rintro ⟨b, pid, status, -, -, hw⟩
      rw [he] at hw
      simp at hw
    · rintro ⟨b, pid, status, hres', -, -⟩
      rw [he] at hres'
      simp at hres'
  refine ⟨fun hne hfuel => ?_, key⟩
  cases hb : shell_cmd_build substs fuel args_str with
  | none => exact absurd hb (build_ne_none hne hfuel)
  | some res =>
    obtain ⟨r, hr, -⟩ := key res hb
    exact ⟨r, hr⟩

theorem shell_cmd_status_witness :
    (∃ r, shell_cmd { vfork := .ok 7, waitpid := .ok (.signaled 9), child_errno := .ENOSPC }
        [("$X".toList, "v".toList)] 8 "kill $X".toList = some r) ∧
      ∃ r, shell_cmd { vfork := .ok 7, waitpid := .ok (.signaled 9), child_errno := .ENOSPC }
          [("$X".toList, "v".toList)] 8 "kill $X".toList = some r ∧ r.ret = -1 := by
  have h := shell_cmd_status
    { vfork := .ok 7, waitpid := .ok (.signaled 9), child_errno := .ENOSPC }
    [("$X".toList, "v".toList)] 8 "kill $X".toList
  refine ⟨h.1 (by decide) (by decide), ?_⟩
  obtain ⟨r, hr, -, -, hsig, -⟩ :=
    h.2 (.ok { args := [0, 5], cmdbuf := "kill\x00v\x00".toList }) rfl
  exact ⟨r, hr, hsig 9 rfl⟩

/-! ## `tun_create`: lemmas -/

theorem digit_char_facts : ∀ k, k < 10 →
    (Char.ofNat (48 + k)).toNat = 48 + k ∧ (Char.ofNat (48 + k)).isDigit = true ∧
    Char.ofNat (48 + k) ≠ NUL ∧ isspace (Char.ofNat (48 + k)) = false ∧
    Char.ofNat (48 + k) ≠ '-' ∧ Char.ofNat (48 + k) ≠ '+' := by
  decide

theorem atou_snoc (s : List Char) (c : Char) : atou (s ++ [c]) = atou s * 10 + (c.toNat - 48) := by
  simp [atou, List.foldl_append]

/-- The digits `utoaAux` puts in front of `acc`: a run of digits, not empty, whose value is
`n`. -/
theorem utoaAux_spec (fuel : Nat) :
    ∀ (n : Nat) (acc : List Char), n < 10 ^ fuel → 0 < fuel →
      ∃ ds, utoaAux fuel n acc = ds ++ acc ∧ atou ds = n ∧ ds ≠ [] ∧ ds.length ≤ fuel ∧
        ∀ c ∈ ds, c.isDigit = true ∧ c ≠ NUL ∧ isspace c = false ∧ c ≠ '-' ∧ c ≠ '+' := by
  induction fuel with
  | zero => intro n acc _ h; omega
  | succ fuel ih =>
    intro n acc hn _
    have hd := digit_char_facts (n % 10) (Nat.mod_lt _ (by norm_num))
    simp only [utoaAux]
    by_cases h0 : n / 10 = 0
    · rw [if_pos h0]
      refine ⟨[Char.ofNat (48 + n % 10)], rfl, ?_, by simp, by simp, ?_⟩
      · simp only [atou, List.foldl_cons, List.foldl_nil, hd.1]
        omega
      · intro c hc
        rw [List.mem_singleton] at hc
        subst hc
        exact hd.2
    · rw [if_neg h0]
      have hfuel : 0 < fuel := by
        rcases Nat.eq_zero_or_pos fuel with h | h
        · subst h
          simp only [zero_add, pow_one] at hn
          omega
        · exact h
      have hn' : n / 10 < 10 ^ fuel := by
        rw [pow_succ] at hn
        exact Nat.div_lt_of_lt_mul (by rw [Nat.mul_comm]; exact hn)
      obtain ⟨ds, h1, h2, h3, h4, h5⟩ := ih (n / 10) (Char.ofNat (48 + n % 10) :: acc) hn' hfuel
      refine ⟨ds ++ [Char.ofNat (48 + n % 10)], by rw [h1]; simp, ?_, by simp, ?_, ?_⟩
      · rw [atou_snoc, h2, hd.1]
        omega
      · simp only [List.length_append, List.length_cons, List.length_nil]
        omega
      · intro c hc
        rcases List.mem_append.1 hc with hc | hc
        · exact h5 c hc
        · rw [List.mem_singleton] at hc
          subst hc
          exact hd.2

theorem utoa_spec {n : Nat} (hn : n < 2 ^ 32) :
    atou (utoa n) = n ∧ utoa n ≠ [] ∧ (utoa n).length ≤ 10 ∧
      ∀ c ∈ utoa n, c.isDigit = true ∧ c ≠ NUL ∧ isspace c = false ∧ c ≠ '-' ∧ c ≠ '+' := by
  obtain ⟨ds, h1, h2, h3, h4, h5⟩ := utoaAux_spec 10 n [] (by omega) (by norm_num)
  rw [List.append_nil] at h1
  rw [utoa, h1]
  exact ⟨h2, h3, h4, h5⟩

theorem scan_u_utoa {n : Nat} (hn : n < 2 ^ 32) : scan_u (utoa n) = some n := by
  obtain ⟨h1, h2, -, h4⟩ := utoa_spec hn
  obtain ⟨d, ds, hds⟩ := List.exists_cons_of_ne_nil h2
  have hd := h4 d (by rw [hds]; exact List.mem_cons_self _ _)
  have htake : (utoa n).takeWhile Char.isDigit = utoa n :=
    List.takeWhile_eq_self_iff.2 (fun c hc => (h4 c hc).1)
  have hdrop : (utoa n).dropWhile isspace = utoa n := by
    rw [hds]
    simp [List.dropWhile_cons, hd.2.2.1]
  have hsign : scan_sign (utoa n) = (false, utoa n) := by
    rw [hds]
    unfold scan_sign
    split
    · rename_i heq
      simp only [List.cons.injEq] at heq
      exact absurd heq.1 hd.2.2.2.1
    · rename_i heq
      simp only [List.cons.injEq] at heq
      exact absurd heq.1 hd.2.2.2.2
    · rfl
  have h64 : ¬ n ≥ 2 ^ 64 := by omega
  simp only [scan_u, strtoumax10, hdrop, hsign, htake, h2, if_false, h1, h64,
    Nat.mod_eq_of_lt hn, Bool.false_eq_true]

/-- Reading back the name `utun<N>` that `%u` prints gives `N`. -/
theorem sscanf_utun_utoa {n : Nat} (hn : n < 2 ^ 32) :
    sscanf_utun ("utun".toList ++ utoa n) = some n := by
  have hnul : ∀ c ∈ "utun".toList ++ utoa n, c ≠ NUL := by
    intro c hc
    rcases List.mem_append.1 hc with hc | hc
    · exact (by decide : ∀ c ∈ "utun".toList, c ≠ NUL) c hc
    · exact ((utoa_spec hn).2.2.2 c hc).2.1
  unfold sscanf_utun
  rw [cstr_eq_self hnul]
  exact scan_u_utoa hn

theorem snprintf_s_eq {size : Nat} {s : List Char} (h : (cstr s).length < size) :
    snprintf_s size s = cstr s := by
  unfold snprintf_s
  exact List.take_of_length_le (by omega)

theorem tun_create_by_id_connect (ifnamsiz : Nat) (unit : Nat → Attempt) (id : Nat) :
    ∀ u, SysCall.connect u ∈ (tun_create_by_id ifnamsiz unit id).calls →
      u = (id + 1) % 2 ^ 32 := by
  intro u hu
  unfold tun_create_by_id at hu
  cases h : unit ((id + 1) % 2 ^ 32) <;> simp only [h] at hu <;> simp at hu
  · exact hu
  · exact hu

theorem isDigit_facts {c : Char} (h : c.isDigit = true) :
    isspace c = false ∧ c ≠ '-' ∧ c ≠ '+' := by
  refine ⟨?_, ?_, ?_⟩
  · cases hs : isspace c with
    | false => rfl
    | true =>
      exfalso
      simp only [isspace, Bool.or_eq_true, beq_iff_eq] at hs
      rcases hs with ((((rfl | rfl) | rfl) | rfl) | rfl) | rfl <;> exact absurd h (by decide)
  · rintro rfl; exact absurd h (by decide)
  · rintro rfl; exact absurd h (by decide)

theorem scan_sign_spec (s : List Char) :
    ∃ sign, s = sign ++ (scan_sign s).2 ∧ (sign = [] ∨ sign = ['-'] ∨ sign = ['+']) := by
  unfold scan_sign
  split
  · exact ⟨['-'], rfl, Or.inr (Or.inl rfl)⟩
  · exact ⟨['+'], rfl, Or.inr (Or.inr rfl)⟩
  · exact ⟨[], rfl, Or.inl rfl⟩

theorem utunLike_of_scan_u {rest : List Char} {id : Nat} (h : scan_u rest = some id) :
    UtunLike ("utun".toList ++ rest) := by
  unfold scan_u at h
  simp only at h
  obtain ⟨sign, hsign, hs⟩ := scan_sign_spec (rest.dropWhile isspace)
  by_cases hd : (scan_sign (rest.dropWhile isspace)).2.takeWhile Char.isDigit = []
  · rw [if_pos hd] at h
    simp at h
  · refine ⟨rest.takeWhile isspace, sign,
      (scan_sign (rest.dropWhile isspace)).2.takeWhile Char.isDigit,
      (scan_sign (rest.dropWhile isspace)).2.dropWhile Char.isDigit, ?_, ?_, hs, hd, ?_⟩
    · simp only [List.append_assoc, List.takeWhile_append_dropWhile]
      rw [← hsign, List.takeWhile_append_dropWhile]
    · intro c hc
      exact List.mem_takeWhile_imp hc
    · intro c hc
      exact List.mem_takeWhile_imp hc

/-- A name `sscanf` reads with the format `utun%u` begins with `utun`, white space, a sign
and a digit, the white space and the sign being optional. -/
theorem utunLike_of_sscanf_utun {name : List Char} {id : Nat}
    (h : sscanf_utun name = some id) : UtunLike (cstr name) := by
  unfold sscanf_utun at h
  split at h
  · rename_i rest heq
    rw [heq]
    exact utunLike_of_scan_u h
  · simp at h

theorem dropWhile_isspace_append {ws s : List Char} (hws : ∀ c ∈ ws, isspace c = true)
    (hs : isspace (s.headD NUL) = false) : (ws ++ s).dropWhile isspace = s := by
  induction ws with
  | nil =>
    cases s with
    | nil => rfl
    | cons c s =>
      simp only [List.headD_cons] at hs
      simp [List.dropWhile_cons, hs]
  | cons w ws ih =>
    simp only [List.cons_append, List.dropWhile_cons, hws w (List.mem_cons_self _ _), if_true]
    exact ih (fun c hc => hws c (List.mem_cons_of_mem _ hc))

theorem scan_u_of_parts {ws sign digits rest : List Char} (hws : ∀ c ∈ ws, isspace c = true)
    (hsign : sign = [] ∨ sign = ['-'] ∨ sign = ['+']) (hne : digits ≠ [])
    (hdig : ∀ c ∈ digits, c.isDigit = true) :
    ∃ id, scan_u (ws ++ (sign ++ (digits ++ rest))) = some id := by
  obtain ⟨d, ds, rfl⟩ := List.exists_cons_of_ne_nil hne
  have hd := isDigit_facts (hdig d (List.mem_cons_self _ _))
  have hdd : d.isDigit = true := hdig d (List.mem_cons_self _ _)
  have htake : ∀ r : List Char, (d :: ds ++ r).takeWhile Char.isDigit ≠ [] := by
    intro r
    simp [List.takeWhile_cons, hdd]
  have hhead : isspace ((sign ++ (d :: ds ++ rest)).headD NUL) = false := by
    rcases hsign with rfl | rfl | rfl
    · exact hd.1
    · exact (by decide : isspace '-' = false)
    · exact (by decide : isspace '+' = false)
  have hsc : (scan_sign (sign ++ (d :: ds ++ rest))).2 = d :: ds ++ rest := by
    rcases hsign with rfl | rfl | rfl
    · simp only [List.nil_append, List.cons_append]
      unfold scan_sign
      split
      · rename_i heq
        simp only [List.cons.injEq] at heq
        exact absurd heq.1 hd.2.1
      · rename_i heq
        simp only [List.cons.injEq] at heq
        exact absurd heq.1 hd.2.2
      · rfl
    · rfl
    · rfl
  unfold scan_u
  simp only [dropWhile_isspace_append hws hhead, hsc, htake rest, if_false]
  exact ⟨_, rfl⟩

/-- A name that begins with `utun`, white space, a sign and a digit, the white space and the
sign being optional, is read by `sscanf` with the format `utun%u`. -/
theorem sscanf_utun_of_utunLike {name : List Char} (h : UtunLike (cstr name)) :
    ∃ id, sscanf_utun name = some id := by
  obtain ⟨ws, sign, digits, rest, heq, hws, hsign, hne, hdig⟩ := h
  have hl : "utun".toList ++ ws ++ sign ++ digits ++ rest =
      'u' :: 't' :: 'u' :: 'n' :: (ws ++ (sign ++ (digits ++ rest))) := by
    simp
  unfold sscanf_utun
  rw [heq, hl]
  exact scan_u_of_parts hws hsign hne hdig

/-! ## The claim on the device name -/

/-- C7 fails as stated.  On the generic branch, with `IFNAMSIZ` 16, the name
`tun0123456789abcdef` opens `/dev/tun0123456789abcdef` and is reported cut to 15
characters.  On the Apple branch the name `utun7abc`, which is not `utun<N>`, is not
refused: it requests control unit 8 and is reported as `utun7`; and the name
`utun4294967295` requests control unit 0. -/
theorem tun_create_name_counterexample :
    tun_create 16 (fun _ => 3) (some "tun0123456789abcdef".toList) =
      { ret := 3, errno := none, if_name := some "tun0123456789ab".toList,
        path := some "/dev/tun0123456789abcdef".toList } ∧
    tun_create_apple 16 (fun _ => .connected 3) (some "utun7abc".toList) =
      { ret := 3, errno := none, if_name := some "utun7".toList,
        calls := [.socket, .ioctl, .connect 8] } ∧
    tun_create_apple 16 (fun _ => .connected 3) (some "utun4294967295".toList) =
      { ret := 3, errno := none, if_name := some "utun4294967295".toList,
        calls := [.socket, .ioctl, .connect 0] } := by
  decide

/-- C7 (amended): on the generic branch `tun_create` called with no name opens no device and
fails with `-1` and `errno` `EINVAL`; called with a name `N` it reports the first
`IFNAMSIZ - 1` characters of `N` and opens the path made of the first 63 characters of
`/dev/` followed by `N`, so for `N` shorter than `IFNAMSIZ` and of at most 58 characters it
opens `/dev/` followed by `N` and reports `N`.  On the Apple branch a non-empty name that
does not begin with `utun`, optional white space, an optional sign and a decimal digit fails
with `-1` and `errno` `EINVAL` without a system call, while a name that begins so is handed
to `tun_create_by_id`, whatever follows the digits; and the name `utun<N>` with
`N + 1 < 2^32` requests no control unit other than `N + 1` and, once connected, reports the
name `utun<N>`. -/
theorem tun_create_name (ifnamsiz : Nat) (sys_open : List Char → Int) (unit : Nat → Attempt) :
    tun_create ifnamsiz sys_open none =
      { ret := -1, errno := some .EINVAL, if_name := none, path := none } ∧
    (∀ name, 0 < ifnamsiz →
      tun_create ifnamsiz sys_open (some name) =
        { ret := sys_open (("/dev/".toList ++ cstr name).take 63), errno := none,
          if_name := some ((cstr name).take (ifnamsiz - 1)),
          path := some (("/dev/".toList ++ cstr name).take 63) }) ∧
    (∀ name, (cstr name).length < ifnamsiz → (cstr name).length ≤ 58 →
      tun_create ifnamsiz sys_open (some name) =
        { ret := sys_open ("/dev/".toList ++ cstr name), errno := none,
          if_name := some (cstr name), path := some ("/dev/".toList ++ cstr name) }) ∧
    (∀ name, name.headD NUL ≠ NUL → ¬ UtunLike (cstr name) →
      tun_create_apple ifnamsiz unit (some name) =
        { ret := -1, errno := some .EINVAL, if_name := none, calls := [] }) ∧
    (∀ name, name.headD NUL ≠ NUL → UtunLike (cstr name) →
      ∃ id, id < 2 ^ 32 ∧
        tun_create_apple ifnamsiz unit (some name) = tun_create_by_id ifnamsiz unit id) ∧
    (∀ n, n + 1 < 2 ^ 32 → 15 ≤ ifnamsiz →
      (∀ u, SysCall.connect u ∈
          (tun_create_apple ifnamsiz unit (some ("utun".toList ++ utoa n))).calls → u = n + 1) ∧
      (∀ fd, unit (n + 1) = .connected fd →
        tun_create_apple ifnamsiz unit (some ("utun".toList ++ utoa n)) =
          { ret := fd, errno := none, if_name := some ("utun".toList ++ utoa n),
            calls := [.socket, .ioctl, .connect (n + 1)] })) := by
  have hdev : ∀ name : List Char, ∀ c ∈ "/dev/".toList ++ cstr name, c ≠ NUL := by
    intro name c hc
    rcases List.mem_append.1 hc with hc | hc
    · exact (by decide : ∀ c ∈ "/dev/".toList, c ≠ NUL) c hc
    · exact ne_nul_of_mem_cstr hc
  refine ⟨rfl, fun name _ => ?_, fun name h1 h2 => ?_, fun name h1 h2 => ?_,
    fun name h1 h2 => ?_, fun n hn hsz => ?_⟩
  · simp only [tun_create, snprintf_s, cstr_eq_self (hdev name)]
  · have hpath : (cstr ("/dev/".toList ++ cstr name)).length < 64 := by
      rw [cstr_eq_self (hdev name), List.length_append]
      have : "/dev/".toList.length = 5 := by decide
      omega
    simp only [tun_create, snprintf_s_eq h1, snprintf_s_eq hpath, cstr_eq_self (hdev name)]
  · have hnone : sscanf_utun name = none := by
      cases hs : sscanf_utun name with
      | none => rfl
      | some id => exact absurd (utunLike_of_sscanf_utun hs) h2
    simp only [tun_create_apple, Option.getD_some, h1, hnone, or_self, if_false, reduceCtorEq]
  · obtain ⟨id, hid⟩ := sscanf_utun_of_utunLike h2
    refine ⟨id, ?_, ?_⟩
    · unfold sscanf_utun at hid
      split at hid
      · unfold scan_u at hid
        simp only at hid
        split_ifs at hid
        simp only [Option.some.injEq] at hid
        rw [← hid]
        exact Nat.mod_lt _ (by norm_num)
      · simp at hid
    · simp only [tun_create_apple, Option.getD_some, h1, hid, or_self, if_false, reduceCtorEq]
  · have hn' : n < 2 ^ 32 := by omega
    have hmod : (n + 1) % 2 ^ 32 = n + 1 := Nat.mod_eq_of_lt hn
    have hhead : ("utun".toList ++ utoa n).headD NUL ≠ NUL :=
      (by decide : 'u' ≠ NUL)
    have hcreate : tun_create_apple ifnamsiz unit (some ("utun".toList ++ utoa n)) =
        tun_create_by_id ifnamsiz unit n := by
      simp only [tun_create_apple, Option.getD_some, hhead, sscanf_utun_utoa hn', or_self,
        if_false, reduceCtorEq]
    rw [hcreate]
    refine ⟨fun u hu => ?_, fun fd hfd => ?_⟩
    · rw [← hmod]
      exact tun_create_by_id_connect ifnamsiz unit n u hu
    · have hnul : ∀ c ∈ "utun".toList ++ utoa n, c ≠ NUL := by
        intro c hc
        rcases List.mem_append.1 hc with hc | hc
        · exact (by decide : ∀ c ∈ "utun".toList, c ≠ NUL) c hc
        · exact ((utoa_spec hn').2.2.2 c hc).2.1
      have hlen : (cstr ("utun".toList ++ utoa n)).length < ifnamsiz := by
        rw [cstr_eq_self hnul, List.length_append]
        have h1 : "utun".toList.length = 4 := by decide
        have h2 := (utoa_spec hn').2.2.1
        omega
      simp only [tun_create_by_id, hmod, hfd, snprintf_s_eq hlen, cstr_eq_self hnul]

theorem tun0_not_utunLike : ¬ UtunLike (cstr "tun0".toList) := by
  rintro ⟨ws, sign, digits, rest, heq, -⟩
  have h : (cstr "tun0".toList).head? = some 't' := by decide
  rw [heq] at h
  simp at h

theorem tun_create_name_witness :
    tun_create 16 (fun _ => 3) (some "tun0123456789abcdef".toList) =
      { ret := 3, errno := none, if_name := some "tun0123456789ab".toList,
        path := some "/dev/tun0123456789abcdef".toList } ∧
    tun_create 16 (fun _ => 3) (some "tun0".toList) =
      { ret := 3, errno := none, if_name := some "tun0".toList,
        path := some "/dev/tun0".toList } ∧
    tun_create_apple 16 (fun _ => .connected 3) (some "tun0".toList) =
      { ret := -1, errno := some .EINVAL, if_name := none, calls := [] } ∧
    tun_create_apple 16 (fun _ => .connected 3) (some ("utun".toList ++ utoa 7)) =
      { ret := 3, errno := none, if_name := some ("utun".toList ++ utoa 7),
        calls := [.socket, .ioctl, .connect 8] } :=
  ⟨(tun_create_name 16 (fun _ => 3) (fun _ => .connected 3)).2.1 "tun0123456789abcdef".toList
      (by decide),
   (tun_create_name 16 (fun _ => 3) (fun _ => .connected 3)).2.2.1 "tun0".toList
      (by decide) (by decide),
   (tun_create_name 16 (fun _ => 3) (fun _ => .connected 3)).2.2.2.1 "tun0".toList
      (by decide) tun0_not_utunLike,
   ((tun_create_name 16 (fun _ => 3) (fun _ => .connected 3)).2.2.2.2.2 7
      (by decide) (by decide)).2 3 rfl⟩

/-! ## Tables and templates of particular shapes: lemmas -/

theorem expandGo_nil_table (s : List Char) : expandGo [] 0 s = s := by
  induction s with
  | nil => rfl
  | cons c r ih => simp [expandGo, find_subst, ih]

theorem map_expand_nil_table (l : List (List Char)) : l.map (expand []) = l := by
  have : expand [] = id := funext expandGo_nil_table
  rw [this, List.map_id]

theorem noSpacePatterns_nil : NoSpacePatterns [] := by
  intro row h; simp at h

theorem nonemptyPatterns_nil : NonemptyPatterns [] := by
  intro row h; simp at h

/-- Without a match an iteration does what it does with the empty table, and moves on by one
character. -/
theorem step_of_find_none {substs : List Subst} {c : Char} {r : List Char}
    (h : find_subst substs (c :: r) = none) (st : BuildState) :
    shell_cmd_step substs (c :: r) st = shell_cmd_step [] (c :: r) st ∧
      match shell_cmd_step [] (c :: r) st with
      | .next rest _ => rest = r
      | _ => True := by
  constructor
  · simp only [shell_cmd_step, h, find_subst]
  · simp only [shell_cmd_step, find_subst]
    split_ifs <;> simp

/-- A table none of whose patterns occurs in the template is never used. -/
theorem loop_of_no_occurrence {substs : List Subst} (fuel : Nat) :
    ∀ (s : List Char) (st : BuildState), (∀ row ∈ substs, ¬ cstr row.1 <:+: s) →
      shell_cmd_loop substs fuel s st = shell_cmd_loop [] fuel s st := by
  induction fuel with
  | zero => intro s st _; rfl
  | succ fuel ih =>
    intro s st hno
    rw [loop_succ, loop_succ]
    cases s with
    | nil => rfl
    | cons c r =>
      have hf : find_subst substs (c :: r) = none :=
        find_subst_eq_none.2 (fun row hrow hp => hno row hrow hp.isInfix)
      obtain ⟨h1, h2⟩ := step_of_find_none hf st
      rw [h1]
      cases hs : shell_cmd_step [] (c :: r) st with
      | stop st1 => rfl
      | fail e => rfl
      | next rest st1 =>
        rw [hs] at h2
        simp only at h2
        subst h2
        exact ih rest st1 (fun row hrow hi =>
          hno row hrow (hi.trans (List.suffix_cons c rest).isInfix))

theorem build_of_no_occurrence {substs : List Subst} (fuel : Nat) (s : List Char)
    (hno : ∀ row ∈ substs, ¬ cstr row.1 <:+: cstr s) :
    shell_cmd_build substs fuel s = shell_cmd_build [] fuel s := by
  unfold shell_cmd_build
  rw [← loop_cstr substs, ← loop_cstr [], loop_of_no_occurrence fuel (cstr s) _ hno]

/-- The arrays `shell_cmd_build` returns are within the sizes of `cmdbuf` and `args`, the
`NULL` after the last pointer included. -/
theorem build_bounds {substs : List Subst} {fuel : Nat} {s : List Char} {b : Built}
    (h : shell_cmd_build substs fuel s = some (.ok b)) :
    b.cmdbuf.length ≤ CMDBUF_SIZE ∧ b.args.length < ARGS_SIZE := by
  unfold shell_cmd_build at h
  have hinv := loop_inv substs fuel s { args := [], cmdbuf := [], is_space := true }
    (by simp)
  cases hl : shell_cmd_loop substs fuel s { args := [], cmdbuf := [], is_space := true } with
  | none => rw [hl] at h; simp at h
  | some res =>
    rw [hl] at h hinv
    cases res with
    | error e => simp at h
    | ok st =>
      simp only at hinv
      simp only [Option.some.injEq] at h
      unfold shell_cmd_finish at h
      by_cases h1 : (!st.is_space && decide (st.cmdbuf.length ≥ CMDBUF_SIZE)) = true
      · rw [if_pos h1] at h; simp at h
      · rw [if_neg h1] at h
        by_cases h2 : st.args.length ≥ ARGS_SIZE
        · simp only [h2, if_true] at h; simp at h
        · simp only [h2, if_false, Except.ok.injEq] at h
          subst h
          refine ⟨?_, by simpa using h2⟩
          cases hsp : st.is_space with
          | true => simpa [hsp] using hinv.1
          | false =>
            simp only [hsp, Bool.not_false, Bool.true_and, decide_eq_true_eq, ge_iff_le,
              not_le] at h1
            simp only [Bool.not_false, if_true, List.length_append, List.length_cons,
              List.length_nil]
            omega

theorem find_subst_of_first {l1 l2 : List Subst} {row : Subst} {s : List Char}
    (h1 : ∀ r ∈ l1, ¬ cstr r.1 <+: s) (h2 : cstr row.1 <+: s) :
    find_subst (l1 ++ row :: l2) s = some row := by
  induction l1 with
  | nil =>
    obtain ⟨pat, sub⟩ := row
    simp [find_subst, (strncmp_eq_iff pat s).2 h2]
  | cons r l1 ih =>
    obtain ⟨pat, sub⟩ := r
    have hn : ¬ strncmp_eq pat s (strlen pat) = true :=
      fun h => h1 (pat, sub) (List.mem_cons_self _ _) ((strncmp_eq_iff pat s).1 h)
    simp only [List.cons_append, find_subst, hn, if_false, Bool.false_eq_true]
    exact ih (fun r hr => h1 r (List.mem_cons_of_mem _ hr))

/-- A token that is a pattern of the table, no earlier pattern being a prefix of it, expands
to the value of its row. -/
theorem expand_pattern {substs : List Subst}
    (hord : substs.Pairwise (fun r1 r2 => ¬ cstr r1.1 <+: cstr r2.1)) {row : Subst}
    (hrow : row ∈ substs) (hne : cstr row.1 ≠ []) :
    expand substs (cstr row.1) = cstr row.2 := by
  obtain ⟨l1, l2, rfl⟩ := List.append_of_mem hrow
  have hfirst : ∀ r ∈ l1, ¬ cstr r.1 <+: cstr row.1 := by
    intro r hr
    exact (List.pairwise_append.1 hord).2.2 r hr row (List.mem_cons_self _ _)
  have hf : find_subst (l1 ++ row :: l2) (cstr row.1) = some (row.1, row.2) :=
    find_subst_of_first hfirst (List.prefix_refl _)
  rw [expand_of_find_some hf (List.length_pos.2 hne)]
  simp [strlen, expand_nil]

theorem tokens_nonempty_nonspace {s t : List Char} (h : t ∈ tokens s) :
    t ≠ [] ∧ ∀ c ∈ t, isspace c = false := by
  induction s generalizing t with
  | nil => simp [tokens] at h
  | cons c r ih =>
    by_cases hsp : isspace c = true
    · rw [tokens_cons_space hsp] at h
      exact ih h
    · have hsp' : isspace c = false := by simpa using hsp
      rw [tokens_cons_nonspace hsp'] at h
      rcases List.mem_cons.1 h with rfl | h
      · refine ⟨by simp, fun d hd => ?_⟩
        rcases List.mem_cons.1 hd with rfl | hd
        · exact hsp'
        · have := List.mem_takeWhile_imp hd
          simpa using this
      · exact ih (mem_tokens_of_mem_tokens_tokenTail h)

theorem shell_cmd_execvp {env : ProcEnv} {pid : Nat} (hv : env.vfork = .ok pid)
    {substs : List Subst} {fuel : Nat} {s : List Char} {b : Built}
    (hb : shell_cmd_build substs fuel s = some (.ok b)) :
    ∃ r, shell_cmd env substs fuel s = some r ∧ r.execvp = some (argv b) := by
  unfold shell_cmd
  rw [hb]
  simp only [hv]
  cases env.waitpid with
  | error e => exact ⟨_, rfl, rfl⟩
  | ok status =>
    simp only
    split_ifs <;> exact ⟨_, rfl, rfl⟩

theorem shell_cmd_of_build_error {env : ProcEnv} {substs : List Subst} {fuel : Nat}
    {s : List Char} {e : Errno} (hb : shell_cmd_build substs fuel s = some (.error e)) :
    shell_cmd env substs fuel s = some { ret := -1, errno := e, execvp := none } := by
  unfold shell_cmd
  rw [hb]

/-! ## The claims on `shell_cmd` -/

/-- C2: for every template in which no pattern of the table occurs, that has at most 63
whitespace-separated tokens and whose tokens with their terminators fit in 4096 bytes,
`shell_cmd` builds, and its child passes to `execvp`, exactly the list of the maximal runs of
non-whitespace characters of the template, in order and unchanged, with room left for the
`NULL` after the last pointer; no argument is empty and none contains whitespace. -/
theorem shell_cmd_no_pattern (env : ProcEnv) (pid : Nat) (substs : List Subst)
    (args_str : List Char) (fuel : Nat)
    (hno : ∀ row ∈ substs, ¬ cstr row.1 <:+: cstr args_str)
    (hcount : (tokens (cstr args_str)).length ≤ 63)
    (hsize : (layout (tokens (cstr args_str))).length ≤ 4096)
    (hfuel : (cstr args_str).length < fuel)
    (hv : env.vfork = .ok pid) :
    (∃ b, shell_cmd_build substs fuel args_str = some (.ok b) ∧
      argv b = tokens (cstr args_str) ∧ b.args.length < ARGS_SIZE) ∧
    (∃ r, shell_cmd env substs fuel args_str = some r ∧
      r.execvp = some (tokens (cstr args_str))) ∧
    ∀ t ∈ tokens (cstr args_str), t ≠ [] ∧ ∀ c ∈ t, isspace c = false := by
  have hfit : Fits ((tokens (cstr args_str)).map (expand [])) := by
    rw [map_expand_nil_table]
    exact ⟨by simp only [ARGS_SIZE]; omega, hsize⟩
  have hb := build_of_fits noSpacePatterns_nil nonemptyPatterns_nil hfuel hfit
  have hargv := argv_build noSpacePatterns_nil hb
  rw [← build_of_no_occurrence fuel args_str hno] at hb
  rw [map_expand_nil_table] at hb hargv
  refine ⟨⟨_, hb, hargv, (build_bounds hb).2⟩, ?_, fun t ht => tokens_nonempty_nonspace ht⟩
  obtain ⟨r, hr1, hr2⟩ := shell_cmd_execvp hv hb
  exact ⟨r, hr1, by rw [hr2, hargv]⟩

theorem shell_cmd_no_pattern_witness :
    ∃ r, shell_cmd { vfork := .ok 7, waitpid := .ok (.exited 0), child_errno := .ENOSPC }
        [("$IF_NAME".toList, "tun0".toList)] 40 "  sysctl \t net.ipv4.ip_forward=1 ".toList
          = some r ∧
      r.execvp = some ["sysctl".toList, "net.ipv4.ip_forward=1".toList] :=
  (shell_cmd_no_pattern { vfork := .ok 7, waitpid := .ok (.exited 0), child_errno := .ENOSPC } 7
    [("$IF_NAME".toList, "tun0".toList)] "  sysctl \t net.ipv4.ip_forward=1 ".toList 40
    (by decide) (by decide) (by decide) (by decide) rfl).2.1

/-- C9 fails as stated: with the pattern `a b`, which contains a space, the template `a b` of
two tokens gives one argument. -/
theorem shell_cmd_shape_counterexample :
    (shell_cmd_build [("a b".toList, "v".toList)] 4 "a b".toList).map (Except.map argv) =
        some (.ok ["v".toList]) ∧
      (shell_cmd_build [("a b".toList, "w w".toList)] 4 "a b".toList).map (Except.map argv) =
        some (.ok ["w w".toList]) ∧
      tokens "a b".toList = ["a".toList, "b".toList] := by
  refine ⟨?_, ?_, ?_⟩ <;> rfl

/-- C9 (amended): for every template and every two tables with the same patterns in the same
order, the patterns containing no whitespace and the values arbitrary, when `shell_cmd`
builds an argument vector with each of them, both vectors have as many arguments as the
template has whitespace-separated tokens, and each argument is the expansion of its token: a
value is copied as it is into the argument of the token the pattern is in, it is not split at
whitespace and not read again for patterns. -/
theorem shell_cmd_shape (substs1 substs2 : List Subst) (fuel1 fuel2 : Nat)
    (args_str : List Char) (b1 b2 : Built)
    (hpat : substs1.map Prod.fst = substs2.map Prod.fst)
    (hws : NoSpacePatterns substs1)
    (h1 : shell_cmd_build substs1 fuel1 args_str = some (.ok b1))
    (h2 : shell_cmd_build substs2 fuel2 args_str = some (.ok b2)) :
    (argv b1).length = (tokens (cstr args_str)).length ∧
    (argv b2).length = (tokens (cstr args_str)).length ∧
    argv b1 = (tokens (cstr args_str)).map (expand substs1) ∧
    argv b2 = (tokens (cstr args_str)).map (expand substs2) := by
  have hws2 : NoSpacePatterns substs2 := by
    intro row hrow
    have : row.1 ∈ substs1.map Prod.fst := by
      rw [hpat]; exact List.mem_map_of_mem _ hrow
    obtain ⟨row1, hrow1, heq⟩ := List.mem_map.1 this
    rw [← heq]
    exact hws row1 hrow1
  have e1 := argv_build hws h1
  have e2 := argv_build hws2 h2
  exact ⟨by rw [e1, List.length_map], by rw [e2, List.length_map], e1, e2⟩

theorem shell_cmd_shape_witness :
    argv { args := [0, 5], cmdbuf := "echo\x00a b\x00".toList } =
        (tokens (cstr "echo $X".toList)).map (expand [("$X".toList, "a b".toList)]) ∧
      argv { args := [0, 5], cmdbuf := "echo\x00$X $X\x00".toList } =
        (tokens (cstr "echo $X".toList)).map (expand [("$X".toList, "$X $X".toList)]) :=
  (shell_cmd_shape [("$X".toList, "a b".toList)] [("$X".toList, "$X $X".toList)] 8 8
    "echo $X".toList { args := [0, 5], cmdbuf := "echo\x00a b\x00".toList }
    { args := [0, 5], cmdbuf := "echo\x00$X $X\x00".toList }
    rfl (by decide) rfl rfl).2.2

theorem loop_empty_pattern_none {c : Char} (h0 : c ≠ NUL) (h : isspace c = false)
    (r : List Char) (fuel : Nat) :
    shell_cmd_loop [([], [])] fuel (c :: r) { args := [0], cmdbuf := [], is_space := false }
      = none := by
  induction fuel with
  | zero => rfl
  | succ fuel ih =>
    rw [loop_succ]
    have : shell_cmd_step [([], [])] (c :: r) { args := [0], cmdbuf := [], is_space := false }
        = .next (c :: r) { args := [0], cmdbuf := [], is_space := false } := by
      simp [shell_cmd_step, h0, h, find_subst, strncmp_eq, strlen, cstr, CMDBUF_SIZE]
    rw [this]
    exact ih

theorem build_empty_pattern_none {c : Char} (h0 : c ≠ NUL) (h : isspace c = false)
    (r : List Char) (fuel : Nat) : shell_cmd_build [([], [])] fuel (c :: r) = none := by
  unfold shell_cmd_build
  cases fuel with
  | zero => rfl
  | succ fuel =>
    rw [loop_succ]
    have : shell_cmd_step [([], [])] (c :: r) { args := [], cmdbuf := [], is_space := true }
        = .next (c :: r) { args := [0], cmdbuf := [], is_space := false } := by
      simp [shell_cmd_step, h0, h, find_subst, strncmp_eq, strlen, cstr, CMDBUF_SIZE, ARGS_SIZE]
    rw [this]
    simp only [loop_empty_pattern_none h0 h r fuel]

/-- C10 fails as stated for tables with a pattern that contains whitespace or is empty: with
the pattern `x y` a template of 64 tokens gives 32 arguments and the command is run; with the
empty pattern and the empty value `shell_cmd` does not return, whatever the number of
iterations allowed. -/
theorem shell_cmd_limits_counterexample :
    (tokens (List.replicate 32 "x y ".toList).flatten).length = 64 ∧
      shell_cmd { vfork := .ok 7, waitpid := .ok (.exited 0), child_errno := .ENOSPC } [("x y".toList, "v".toList)] 200
          (List.replicate 32 "x y ".toList).flatten =
        some { ret := 0, errno := .ENOSPC, execvp := some (List.replicate 32 "v".toList) } ∧
      ¬ ∃ fuel r, shell_cmd { vfork := .ok 7, waitpid := .ok (.exited 0), child_errno := .ENOSPC } [([], [])] fuel
          (List.replicate 64 "a ".toList).flatten = some r := by
  refine ⟨by decide, by decide, ?_⟩
  rintro ⟨fuel, r, h⟩
  have hb : shell_cmd_build [([], [])] fuel (List.replicate 64 "a ".toList).flatten = none :=
    build_empty_pattern_none (by decide) (by decide) _ fuel
  unfold shell_cmd at h
  rw [hb] at h
  simp at h

/-- C10 (amended): for every template and table, after any number of iterations of the
parsing loop `cmdbuf` holds at most 4096 bytes and `args` at most 64 pointers, so every byte
and pointer stored so far is at an index below 4096 and below 64, and the arrays of a
finished build keep these sizes, the final `NULL` of `args` included; and for a table whose
patterns are not empty and contain no whitespace, if the template has more than 63 tokens,
or the expanded tokens with their terminators do not fit in 4096 bytes, `shell_cmd` returns
`-1` with `errno` `ENOSPC` and creates no process. -/
theorem shell_cmd_limits (env : ProcEnv) (substs : List Subst) (args_str : List Char) :
    (∀ n rest st,
      shell_cmd_iter substs n args_str { args := [], cmdbuf := [], is_space := true }
        = some (rest, st) →
      st.cmdbuf.length ≤ 4096 ∧ st.args.length ≤ 64) ∧
    (∀ fuel b, shell_cmd_build substs fuel args_str = some (.ok b) →
      b.cmdbuf.length ≤ 4096 ∧ b.args.length + 1 ≤ 64) ∧
    (NoSpacePatterns substs → NonemptyPatterns substs →
      (63 < (tokens (cstr args_str)).length ∨
        4096 < (layout ((tokens (cstr args_str)).map (expand substs))).length) →
      ∀ fuel, (cstr args_str).length < fuel →
        shell_cmd env substs fuel args_str =
          some { ret := -1, errno := .ENOSPC, execvp := none }) := by
  refine ⟨fun n rest st h => ?_, fun fuel b h => ?_, fun hws hne hbig fuel hfuel => ?_⟩
  · exact iter_bounds substs n args_str rest _ st (by simp) h
  · have := build_bounds h
    simp only [CMDBUF_SIZE, ARGS_SIZE] at this
    exact ⟨this.1, by omega⟩
  · apply shell_cmd_of_build_error
    apply build_of_not_fits hws hne hfuel
    rintro ⟨h1, h2⟩
    simp only [CMDBUF_SIZE, ARGS_SIZE, List.length_map] at h1 h2
    omega

set_option maxRecDepth 8000 in
theorem shell_cmd_limits_witness :
    shell_cmd { vfork := .ok 7, waitpid := .ok (.exited 0), child_errno := .ENOSPC } [("$X".toList, "v".toList)] 200
        (List.replicate 64 "$X ".toList).flatten =
      some { ret := -1, errno := .ENOSPC, execvp := none } :=
  (shell_cmd_limits { vfork := .ok 7, waitpid := .ok (.exited 0), child_errno := .ENOSPC } [("$X".toList, "v".toList)]
    (List.replicate 64 "$X ".toList).flatten).2.2 (by decide) (by decide)
    (Or.inl (by decide)) 200 (by decide)

/-- C1 fails as stated: with the rows in the order the specification lists the variables,
the token `$LOCAL_TUN_IP6` becomes the value of `$LOCAL_TUN_IP` followed by `6`, not the
value the table gives for `$LOCAL_TUN_IP6`. -/
theorem shell_cmd_substitutes_counterexample :
    (shell_cmd_build
        [("$IF_NAME".toList, "tun0".toList),
          ("$LOCAL_TUN_IP".toList, "192.168.192.1".toList),
          ("$REMOTE_TUN_IP".toList, "192.168.192.254".toList),
          ("$LOCAL_TUN_IP6".toList, "64:ff9b::c0a8:c001".toList),
          ("$REMOTE_TUN_IP6".toList, "64:ff9b::c0a8:c0fe".toList),
          ("$EXT_IF_NAME".toList, "eth0".toList),
          ("$EXT_IP".toList, "203.0.113.7".toList),
          ("$EXT_GW_IP".toList, "198.51.100.1".toList)]
        20 "$LOCAL_TUN_IP6".toList).map (Except.map argv) =
      some (.ok ["192.168.192.16".toList]) := by
  rfl

theorem substVars_facts : ∀ p ∈ substVars.map String.toList,
    p ≠ [] ∧ (∀ c ∈ p, c ≠ NUL) ∧ ∀ c ∈ p, isspace c = false := by
  decide

/-- Among the eight names, one is a prefix of another one only for `$LOCAL_TUN_IP` and
`$LOCAL_TUN_IP6` and for `$REMOTE_TUN_IP` and `$REMOTE_TUN_IP6`. -/
theorem substVars_prefix_pairs : ∀ p ∈ substVars.map String.toList,
    ∀ q ∈ substVars.map String.toList, p <+: q →
      p = q ∨ (p = "$LOCAL_TUN_IP".toList ∧ q = "$LOCAL_TUN_IP6".toList) ∨
        (p = "$REMOTE_TUN_IP".toList ∧ q = "$REMOTE_TUN_IP6".toList) := by
  decide

/-- C1 (amended): for every table that has one row for each of the eight variables, in which
no pattern is a prefix of the pattern of a later row, and for every template whose expanded
tokens fit the arrays of `shell_cmd`, the argument vector has one argument for each
whitespace-separated token of the template, and the argument of a token that is exactly the
name of a variable is exactly the value the table gives for that variable. -/
theorem shell_cmd_substitutes (substs : List Subst) (args_str : List Char) (fuel : Nat)
    (hrows : (substs.map Prod.fst).Perm (substVars.map String.toList))
    (hord : substs.Pairwise (fun r1 r2 => ¬ r1.1 <+: r2.1))
    (hfuel : (cstr args_str).length < fuel)
    (hfit : Fits ((tokens (cstr args_str)).map (expand substs))) :
    ∃ b, shell_cmd_build substs fuel args_str = some (.ok b) ∧
      (argv b).length = (tokens (cstr args_str)).length ∧
      ∀ (i : Nat) (row : Subst), row ∈ substs → (tokens (cstr args_str))[i]? = some row.1 →
        (argv b)[i]? = some (cstr row.2) := by
  have hvar : ∀ row ∈ substs,
      row.1 ≠ [] ∧ (∀ c ∈ row.1, c ≠ NUL) ∧ ∀ c ∈ row.1, isspace c = false :=
    fun row hrow => substVars_facts row.1 (hrows.mem_iff.1 (List.mem_map_of_mem _ hrow))
  have hcstr : ∀ row ∈ substs, cstr row.1 = row.1 :=
    fun row hrow => cstr_eq_self (hvar row hrow).2.1
  have hws : NoSpacePatterns substs := by
    intro row hrow
    rw [hcstr row hrow]
    exact (hvar row hrow).2.2
  have hne : NonemptyPatterns substs := by
    intro row hrow
    rw [hcstr row hrow]
    exact (hvar row hrow).1
  have hord' : substs.Pairwise (fun r1 r2 => ¬ cstr r1.1 <+: cstr r2.1) := by
    refine List.Pairwise.imp_of_mem ?_ hord
    intro r1 r2 h1 h2 h
    rw [hcstr r1 h1, hcstr r2 h2]
    exact h
  have hb := build_of_fits hws hne hfuel hfit
  have hargv := argv_build hws hb
  refine ⟨_, hb, by rw [hargv, List.length_map], fun i row hrow htok => ?_⟩
  rw [hargv, List.getElem?_map, htok, Option.map_some']
  rw [← hcstr row hrow, expand_pattern hord' hrow (hne row hrow)]

theorem shell_cmd_substitutes_witness :
    ∃ b, shell_cmd_build exampleSubsts 80
        "ip -6 addr add $LOCAL_TUN_IP6 peer $REMOTE_TUN_IP6 dev $IF_NAME".toList = some (.ok b) ∧
      (argv b)[4]? = some "64:ff9b::c0a8:c001".toList := by
  obtain ⟨b, hb, -, h⟩ := shell_cmd_substitutes exampleSubsts
    "ip -6 addr add $LOCAL_TUN_IP6 peer $REMOTE_TUN_IP6 dev $IF_NAME".toList 80
    (by decide) (by decide) (by decide) (by decide)
  exact ⟨b, hb, h 4 ("$LOCAL_TUN_IP6".toList, "64:ff9b::c0a8:c001".toList) (by decide) (by decide)⟩

end Dsvpn
